import Mathlib

/-!
# Verification of the graph algorithm and event-trace engine (`graph.rs`)

This file shallowly embeds the weighted adjacency-list graph and the four
instrumented algorithms (DFS, BFS, Dijkstra, Prim) of the repository and
proves the specified properties about them.

Modelling conventions:

* Rust `i64` node identifiers and weights are idealised as `Int` (the i64
  sentinel `i64::MAX` used via `unwrap_or(&i64::MAX)` is modelled as a genuine
  "+infinity" on the `Option Int` returned by a map lookup; arithmetic is
  exact, without wraparound).
* `HashMap<i64, V>` is modelled as an association list with in-place
  overwriting insertion and first-match lookup; fresh keys are appended.
  Hash iteration order, which is unspecified in Rust, becomes key insertion
  order; no theorem below depends on a particular iteration order in an
  essential way.
* `HashSet<i64>` is modelled as a duplicate-free list.
* `BinaryHeap<State>` under the reversed `Ord` on `cost` is modelled as a
  list with `pop` removing an entry of minimal cost (the earliest pushed
  among ties; the tie order among equal costs is unspecified in Rust).
* The `while` loops and the unbounded recursion of `dfs_helper` are embedded
  with an explicit fuel parameter; `none` means the fuel was exhausted before
  the loop finished.  Sufficient fuel is proved separately, so the fuel is an
  embedding device, not a simplification.
-/

namespace GraphTui

/-- Node identifiers: Rust `i64`, idealised as `Int`. -/
abbrev Node := Int

/-- Edge weights: Rust `i64`, idealised as `Int`. -/
abbrev Weight := Int

/-- Rust `struct State { cost: i64, node: i64 }`, the priority-queue entry. -/
structure HState where
  cost : Int
  node : Node
deriving Repr, DecidableEq

/-- `BinaryHeap<State>::pop` under `impl Ord for State` (reversed comparison
on `cost`, so the max-heap yields minimal cost): removes an entry of minimal
cost from the pool of pushed entries, returning it and the rest.  Among
entries of equal cost the earliest in the list is preferred (Rust leaves the
tie order unspecified). -/
def popMin : List HState → Option (HState × List HState)
  | [] => none
  | e :: rest =>
    match popMin rest with
    | none => some (e, [])
    | some (m, r) => if e.cost ≤ m.cost then some (e, rest) else some (m, e :: r)

/-- `HashMap<i64, i64>` modelled as an association list. -/
abbrev IMap := List (Node × Int)

/-- `HashMap::get`. -/
def mget : IMap → Node → Option Int
  | [], _ => none
  | (k1, v1) :: rest, k => if k1 = k then some v1 else mget rest k

/-- `HashMap::insert` (overwrite in place, append if the key is fresh). -/
def mput : IMap → Node → Int → IMap
  | [], k, v => [(k, v)]
  | (k1, v1) :: rest, k, v =>
    if k1 = k then (k, v) :: rest else (k1, v1) :: mput rest k v

/-- `pub struct Graph { adj: HashMap<i64, Vec<(i64, i64)>> }`. -/
structure Graph where
  adj : List (Node × List (Node × Weight))
deriving Repr, DecidableEq

/-- `Graph::new()`. -/
def Graph.new : Graph := ⟨[]⟩

/-- `HashMap::get` on the adjacency map. -/
def adjFind : List (Node × List (Node × Weight)) → Node → Option (List (Node × Weight))
  | [], _ => none
  | (k, es) :: rest, u => if k = u then some es else adjFind rest u

/-- `self.adj.get(&u)`. -/
def Graph.adjGet (g : Graph) (u : Node) : Option (List (Node × Weight)) :=
  adjFind g.adj u

/-- The adjacency entries of `u` (empty when `u` is not a key); this is how
every algorithm consumes `self.adj.get(&u)` via `if let Some(v_list)`. -/
def Graph.adjL (g : Graph) (u : Node) : List (Node × Weight) :=
  (g.adjGet u).getD []

/-- `self.adj.entry(u).or_insert(Vec::new()).push((v, w))`. -/
def adjPush : List (Node × List (Node × Weight)) → Node → Node × Weight →
    List (Node × List (Node × Weight))
  | [], u, vw => [(u, [vw])]
  | (k, es) :: rest, u, vw =>
    if k = u then (k, es ++ [vw]) :: rest else (k, es) :: adjPush rest u vw

/-- `pub enum EdgeType { Single, Both }`. -/
inductive EdgeType where
  | Single
  | Both

/-- `Graph::add_edge`. -/
def Graph.add_edge (g : Graph) (u v : Node) (w : Weight) (t : EdgeType) : Graph :=
  match t with
  | .Single => ⟨adjPush g.adj u (v, w)⟩
  | .Both => ⟨adjPush (adjPush g.adj u (v, w)) v (u, w)⟩

/-- `HashSet::insert` as used by `nodes()` (order of the final `collect` is
unspecified in Rust; we record first occurrences in scan order). -/
def sput (s : List Node) (x : Node) : List Node :=
  if x ∈ s then s else s ++ [x]

/-- `Graph::nodes`. -/
def Graph.nodes (g : Graph) : List Node :=
  g.adj.foldl (fun acc kv => kv.2.foldl (fun a p => sput a p.1) (sput acc kv.1)) []

/-- The normalised key `if u <= v { (u, v) } else { (v, u) }` of `Graph::edges`. -/
def normKey (u v : Node) : Node × Node :=
  if u ≤ v then (u, v) else (v, u)

/-- One step of the `Graph::edges` accumulation: `(result, seen)` after
examining the adjacency entry `(u, (v, w))`. -/
def edgesStep (u : Node) (acc : List (Node × Node × Weight) × List (Node × Node))
    (p : Node × Weight) : List (Node × Node × Weight) × List (Node × Node) :=
  if normKey u p.1 ∈ acc.2 then acc
  else (acc.1 ++ [(u, p.1, p.2)], normKey u p.1 :: acc.2)

/-- `Graph::edges`. -/
def Graph.edges (g : Graph) : List (Node × Node × Weight) :=
  (g.adj.foldl (fun acc kv => kv.2.foldl (edgesStep kv.1) acc) ([], [])).1

/-- Total number of adjacency entries, used for fuel bounds. -/
def Graph.entryCount (g : Graph) : Nat :=
  (g.adj.map (fun kv => kv.2.length)).sum

/-- Generous fuel: every loop below finishes within `entryCount + 3`
iterations (proved below where claimed). -/
def Graph.fuel0 (g : Graph) : Nat := g.entryCount + 3

/-! ## DFS (`Graph::dfs` and `Graph::dfs_helper`) -/

/-- The `(visited, visited_nodes, visited_edges)` state of `dfs_helper`. -/
structure DfsState where
  visited : List Node
  nodes : List Node
  edges : List (Node × Node)
deriving Repr, DecidableEq

/-- The `for &(v, _) in v_list` loop body of `dfs_helper`; `rec` is the
recursive call at the next depth.  Returns the state and the `bool` result of
the helper. -/
def dfsScan (rec : Node → DfsState → Option (DfsState × Bool)) (curr : Node) :
    List (Node × Weight) → DfsState → Option (DfsState × Bool)
  | [], st => some (st, false)
  | (v, _) :: rest, st =>
    if v ∈ st.visited then dfsScan rec curr rest st
    else
      match rec v { st with edges := st.edges ++ [(curr, v)] } with
      | none => none
      | some (st2, b) =>
        if b then some (st2, true) else dfsScan rec curr rest st2

/-- `Graph::dfs_helper`, with fuel bounding the recursion depth. -/
def dfsVisit (g : Graph) : Nat → Node → DfsState → Option (DfsState × Bool)
  | 0, _, _ => none
  | fuel + 1, curr, st =>
    dfsScan (dfsVisit g fuel) curr (g.adjL curr)
      ⟨curr :: st.visited, st.nodes ++ [curr], st.edges⟩

/-- The `(visited_nodes, visited_edges)` pair returned by a traversal. -/
structure Trace where
  nodes : List Node
  edges : List (Node × Node)
deriving Repr, DecidableEq

/-- `Graph::dfs` at a given recursion-depth fuel. -/
def Graph.dfsF (g : Graph) (s : Node) (fuel : Nat) : Option Trace :=
  (dfsVisit g fuel s ⟨[], [], []⟩).map (fun r => ⟨r.1.nodes, r.1.edges⟩)

/-- `Graph::dfs` (the fuel is sufficient; see the termination theorems). -/
def Graph.dfs (g : Graph) (s : Node) : Option Trace :=
  g.dfsF s g.fuel0

/-! ## BFS (`Graph::bfs`) -/

/-- The state of `Graph::bfs`; `errs` counts executions of the
`_ => println!("error")` branch. -/
structure BfsState where
  visited : List Node
  nodes : List Node
  edges : List (Node × Node)
  q : List Node
  errs : Nat
deriving Repr, DecidableEq

/-- The `for &(v, _) in v_list` loop of `bfs`. -/
def bfsScan (u : Node) : List (Node × Weight) → BfsState → BfsState
  | [], st => st
  | (v, _) :: rest, st =>
    let st1 :=
      if v ∈ st.visited then st
      else ⟨v :: st.visited, st.nodes ++ [v], st.edges ++ [(u, v)], st.q ++ [v], st.errs⟩
    bfsScan u rest st1

/-- The `while !q.is_empty()` loop of `bfs`; `q.pop_front()` yields `None`
exactly when the queue is empty, which the guard has excluded, but the
`match` is embedded faithfully. -/
def bfsLoop (g : Graph) : Nat → BfsState → Option BfsState
  | 0, _ => none
  | fuel + 1, st =>
    if st.q.isEmpty then some st
    else
      match st.q with
      | [] => bfsLoop g fuel { st with errs := st.errs + 1 }
      | u :: rest => bfsLoop g fuel (bfsScan u (g.adjL u) { st with q := rest })

/-- `Graph::bfs` at a given fuel. -/
def Graph.bfsF (g : Graph) (s : Node) (fuel : Nat) : Option BfsState :=
  bfsLoop g fuel ⟨[s], [s], [], [s], 0⟩

/-- `Graph::bfs` (the fuel is sufficient; see the termination theorems). -/
def Graph.bfs (g : Graph) (s : Node) : Option BfsState :=
  g.bfsF s g.fuel0

/-! ## Dijkstra (`Graph::dijkstra`) -/

/-- `c < *m.get(&v).unwrap_or(&i64::MAX)`: an absent entry is +infinity. -/
def ltD (c : Int) : Option Int → Bool
  | none => true
  | some d => decide (c < d)

/-- `c > *m.get(&v).unwrap_or(&i64::MAX)`: never true against +infinity. -/
def gtD (c : Int) : Option Int → Bool
  | none => false
  | some d => decide (d < c)

/-- The state of `Graph::dijkstra`. -/
structure DijkState where
  dist : IMap
  parent : IMap
  nodes : List Node
  edges : List (Node × Node)
  processed : List Node
  pq : List HState
deriving Repr, DecidableEq

/-- The relaxation loop `for &(v, w) in v_list` of `dijkstra`. -/
def dijkRelax (u : HState) : List (Node × Weight) → DijkState → DijkState
  | [], st => st
  | (v, w) :: rest, st =>
    let cost := u.cost + w
    let st1 :=
      if ltD cost (mget st.dist v) then
        { st with
          dist := mput st.dist v cost
          parent := mput st.parent v u.node
          pq := ⟨cost, v⟩ :: st.pq
          edges := st.edges ++ [(u.node, v)] }
      else st
    dijkRelax u rest st1

/-- The `while !pq.is_empty()` loop of `dijkstra`. -/
def dijkLoop (g : Graph) : Nat → DijkState → Option DijkState
  | 0, _ => none
  | fuel + 1, st =>
    match popMin st.pq with
    | none => some st
    | some (u, rest) =>
      let st1 := { st with pq := rest }
      if gtD u.cost (mget st1.dist u.node) then dijkLoop g fuel st1
      else
        let st2 :=
          if u.node ∈ st1.processed then st1
          else { st1 with nodes := st1.nodes ++ [u.node], processed := u.node :: st1.processed }
        dijkLoop g fuel (dijkRelax u (g.adjL u.node) st2)

/-- The initial state of `dijkstra`: `dist.insert(s, 0); pq.push(...)`. -/
def dijkInit (s : Node) : DijkState := ⟨[(s, 0)], [], [], [], [], [⟨0, s⟩]⟩

/-- `Graph::dijkstra` at a given fuel. -/
def Graph.dijkstraF (g : Graph) (s : Node) (fuel : Nat) : Option DijkState :=
  dijkLoop g fuel (dijkInit s)

/-- `Graph::dijkstra` (the fuel is sufficient for non-negative weights; see
the termination theorems). -/
def Graph.dijkstra (g : Graph) (s : Node) : Option DijkState :=
  g.dijkstraF s g.fuel0

/-! ## Prim (`Graph::prim`) -/

/-- The state of `Graph::prim`. -/
structure PrimState where
  dist : IMap
  booked : List Node
  nodes : List Node
  edges : List (Node × Node)
  parent : IMap
  pq : List HState
  total : Int
deriving Repr, DecidableEq

/-- The loop `for &(v, w) in v_list` of `prim`
(`if !booked.contains(&v) && w < *dist.get(&v).unwrap_or(&i64::MAX)`). -/
def primRelax (u : Node) : List (Node × Weight) → PrimState → PrimState
  | [], st => st
  | (v, w) :: rest, st =>
    let st1 :=
      if v ∈ st.booked then st
      else if ltD w (mget st.dist v) then
        { st with
          dist := mput st.dist v w
          parent := mput st.parent v u
          pq := ⟨w, v⟩ :: st.pq }
      else st
    primRelax u rest st1

/-- The `while let Some(State { cost, node: u }) = pq.pop()` loop of `prim`. -/
def primLoop (g : Graph) : Nat → PrimState → Option PrimState
  | 0, _ => none
  | fuel + 1, st =>
    match popMin st.pq with
    | none => some st
    | some (u, rest) =>
      let st1 := { st with pq := rest }
      if u.node ∈ st1.booked then primLoop g fuel st1
      else if gtD u.cost (mget st1.dist u.node) then primLoop g fuel st1
      else
        let st2 := { st1 with booked := u.node :: st1.booked, nodes := st1.nodes ++ [u.node] }
        let st3 :=
          match mget st2.parent u.node with
          | none => st2
          | some p => { st2 with edges := st2.edges ++ [(p, u.node)], total := st2.total + u.cost }
        primLoop g fuel (primRelax u.node (g.adjL u.node) st3)

/-- The initial state of `prim`. -/
def primInit (s : Node) : PrimState := ⟨[(s, 0)], [], [], [], [], [⟨0, s⟩], 0⟩

/-- `Graph::prim` at a given fuel. -/
def Graph.primF (g : Graph) (s : Node) (fuel : Nat) : Option PrimState :=
  primLoop g fuel (primInit s)

/-- `Graph::prim` (the fuel is sufficient; see the termination theorems). -/
def Graph.prim (g : Graph) (s : Node) : Option PrimState :=
  g.primF s g.fuel0

/-! ## Walks and reachability

A walk follows adjacency entries from `s`; its cost is the sum of the edge
weights along it.  This is the specification-side notion of "path from the
source" used by the shortest-path and reachability claims. -/

/-- `Walk g s v c`: there is a walk from `s` to `v` along adjacency entries
of `g` whose weights sum to `c`. -/
inductive Walk (g : Graph) (s : Node) : Node → Int → Prop
  | nil : Walk g s s 0
  | snoc {x z : Node} {w c : Int} : Walk g s x c → (z, w) ∈ g.adjL x → Walk g s z (c + w)

/-- `v` is reachable from `s` by following adjacency entries. -/
def Reach (g : Graph) (s v : Node) : Prop := ∃ c, Walk g s v c

/-- All adjacency entries of `g` carry non-negative weights (the documented
precondition of Dijkstra). -/
def Graph.nonnegW (g : Graph) : Prop :=
  ∀ kv ∈ g.adj, ∀ p ∈ kv.2, (0 : Int) ≤ p.2

/-- The adjacency map has no duplicate keys; this holds for every graph
reachable through the API (`HashMap` keys are unique) and is preserved by
`add_edge`. -/
def Graph.WF (g : Graph) : Prop := (g.adj.map Prod.fst).Nodup

/-! ## Basic lemmas about the container models -/

theorem popMin_nil_iff {l : List HState} : popMin l = none ↔ l = [] := by
  cases l with
  | nil => simp [popMin]
  | cons e rest =>
    simp only [popMin]
    constructor
    · intro h
      cases hrest : popMin rest with
      | none => rw [hrest] at h; exact absurd h (by simp)
      | some p =>
        rw [hrest] at h
        obtain ⟨m, r⟩ := p
        by_cases hc : e.cost ≤ m.cost <;> simp [hc] at h
    · intro h; exact absurd h (by simp)

theorem popMin_perm : ∀ {l : List HState} {m : HState} {r : List HState},
    popMin l = some (m, r) → l.Perm (m :: r) := by
  intro l
  induction l with
  | nil => intro m r h; simp [popMin] at h
  | cons e rest ih =>
    intro m r h
    simp only [popMin] at h
    cases hrest : popMin rest with
    | none =>
      rw [hrest] at h
      obtain rfl : rest = [] := popMin_nil_iff.mp hrest
      simp only [Option.some.injEq, Prod.mk.injEq] at h
      obtain ⟨rfl, rfl⟩ := h
      exact List.Perm.refl _
    | some p =>
      obtain ⟨m0, r0⟩ := p
      rw [hrest] at h
      by_cases hc : e.cost ≤ m0.cost
      · simp only [hc, if_true, Option.some.injEq, Prod.mk.injEq] at h
        obtain ⟨rfl, rfl⟩ := h
        exact List.Perm.refl _
      · simp only [hc, if_false, Option.some.injEq, Prod.mk.injEq] at h
        obtain ⟨rfl, rfl⟩ := h
        exact List.Perm.trans ((ih hrest).cons e) (List.Perm.swap m0 e r0)

theorem popMin_min : ∀ {l : List HState} {m : HState} {r : List HState},
    popMin l = some (m, r) → ∀ x ∈ l, m.cost ≤ x.cost := by
  intro l
  induction l with
  | nil => intro m r h; simp [popMin] at h
  | cons e rest ih =>
    intro m r h x hx
    simp only [popMin] at h
    cases hrest : popMin rest with
    | none =>
      rw [hrest] at h
      obtain rfl : rest = [] := popMin_nil_iff.mp hrest
      simp only [Option.some.injEq, Prod.mk.injEq] at h
      obtain ⟨rfl, rfl⟩ := h
      rcases List.mem_singleton.mp hx with rfl
      exact le_refl _
    | some p =>
      obtain ⟨m0, r0⟩ := p
      rw [hrest] at h
      by_cases hc : e.cost ≤ m0.cost
      · simp only [hc, if_true, Option.some.injEq, Prod.mk.injEq] at h
        obtain ⟨rfl, rfl⟩ := h
        rcases List.mem_cons.mp hx with rfl | hx
        · exact le_refl _
        · exact le_trans hc (ih hrest x hx)
      · simp only [hc, if_false, Option.some.injEq, Prod.mk.injEq] at h
        obtain ⟨rfl, rfl⟩ := h
        rcases List.mem_cons.mp hx with rfl | hx
        · exact le_of_lt (lt_of_not_le hc)
        · exact ih hrest x hx

theorem popMin_mem {l : List HState} {m : HState} {r : List HState}
    (h : popMin l = some (m, r)) : m ∈ l :=
  (popMin_perm h).symm.subset (List.mem_cons_self m r)

theorem popMin_subset {l : List HState} {m : HState} {r : List HState}
    (h : popMin l = some (m, r)) : ∀ x ∈ r, x ∈ l :=
  fun x hx => (popMin_perm h).symm.subset (List.mem_cons_of_mem m hx)

theorem popMin_mem_cases {l : List HState} {m : HState} {r : List HState}
    (h : popMin l = some (m, r)) : ∀ x ∈ l, x = m ∨ x ∈ r :=
  fun x hx => List.mem_cons.mp ((popMin_perm h).subset hx)

theorem popMin_length {l : List HState} {m : HState} {r : List HState}
    (h : popMin l = some (m, r)) : l.length = r.length + 1 :=
  (popMin_perm h).length_eq

theorem mget_mput_self : ∀ (m : IMap) (k : Node) (v : Int), mget (mput m k v) k = some v := by
  intro m
  induction m with
  | nil => intro k v; simp [mput, mget]
  | cons p rest ih =>
    intro k v
    obtain ⟨k1, v1⟩ := p
    by_cases h : k1 = k
    · subst h; simp [mput, mget]
    · simp only [mput, h, if_false, mget]
      exact ih k v

theorem mget_mput_ne : ∀ (m : IMap) {k k' : Node}, k' ≠ k → ∀ (v : Int),
    mget (mput m k v) k' = mget m k' := by
  intro m
  induction m with
  | nil =>
    intro k k' hne v
    simp only [mput, mget]
    rw [if_neg (fun h : k = k' => hne h.symm)]
  | cons p rest ih =>
    intro k k' hne v
    obtain ⟨k1, v1⟩ := p
    by_cases h : k1 = k
    · subst h
      simp only [mput, if_true, mget]
      rw [if_neg (fun h => hne h.symm), if_neg (fun h => hne h.symm)]
    · simp only [mput, h, if_false, mget]
      by_cases h2 : k1 = k'
      · simp [h2]
      · rw [if_neg h2, if_neg h2]
        exact ih hne v

theorem adjFind_adjPush : ∀ (l : List (Node × List (Node × Weight))) (u : Node)
    (vw : Node × Weight) (x : Node),
    adjFind (adjPush l u vw) x =
      if x = u then some ((adjFind l u).getD [] ++ [vw]) else adjFind l x := by
  intro l
  induction l with
  | nil =>
    intro u vw x
    by_cases h : x = u
    · subst h; simp [adjPush, adjFind]
    · simp only [adjPush, adjFind, h, if_false]
      rw [if_neg (fun hh : u = x => h hh.symm)]
  | cons p rest ih =>
    intro u vw x
    obtain ⟨k, es⟩ := p
    by_cases hk : k = u
    · subst hk
      simp only [adjPush, if_true, adjFind]
      by_cases hx : k = x
      · subst hx; simp [adjFind]
      · rw [if_neg hx, if_neg (fun h : x = k => hx h.symm)]
        simp only [adjFind, hx, if_false]
    · simp only [adjPush, hk, if_false, adjFind]
      by_cases hx : k = x
      · subst hx
        rw [if_pos rfl, if_neg (fun h : k = u => hk h)]
        simp [adjFind]
      · rw [if_neg hx, ih u vw x]
        simp only [adjFind, hx, if_false]

theorem adjL_add_edge_single (g : Graph) (u v : Node) (w : Weight) (x : Node) :
    (g.add_edge u v w .Single).adjL x =
      if x = u then g.adjL u ++ [(v, w)] else g.adjL x := by
  simp only [Graph.add_edge, Graph.adjL, Graph.adjGet, adjFind_adjPush]
  by_cases h : x = u <;> simp [h]

theorem adjL_add_edge_both (g : Graph) (u v : Node) (w : Weight) (x : Node) :
    (g.add_edge u v w .Both).adjL x =
      if x = v then (if v = u then g.adjL u ++ [(v, w)] else g.adjL v) ++ [(u, w)]
      else if x = u then g.adjL u ++ [(v, w)]
      else g.adjL x := by
  by_cases hv : x = v
  · subst hv
    by_cases hu : x = u
    · subst hu
      simp [Graph.add_edge, Graph.adjL, Graph.adjGet, adjFind_adjPush]
    · simp [Graph.add_edge, Graph.adjL, Graph.adjGet, adjFind_adjPush, hu]
  · by_cases hu : x = u
    · subst hu
      simp [Graph.add_edge, Graph.adjL, Graph.adjGet, adjFind_adjPush, hv]
    · simp [Graph.add_edge, Graph.adjL, Graph.adjGet, adjFind_adjPush, hv, hu]

theorem adjFind_mem : ∀ {l : List (Node × List (Node × Weight))} {u : Node}
    {es : List (Node × Weight)}, adjFind l u = some es → (u, es) ∈ l := by
  intro l
  induction l with
  | nil => intro u es h; simp [adjFind] at h
  | cons p rest ih =>
    intro u es h
    obtain ⟨k, l1⟩ := p
    simp only [adjFind] at h
    by_cases hk : k = u
    · subst hk
      rw [if_pos rfl] at h
      obtain rfl := Option.some.inj h
      exact List.mem_cons_self _ _
    · rw [if_neg hk] at h
      exact List.mem_cons_of_mem _ (ih h)

theorem nonnegW_adjL {g : Graph} (h : g.nonnegW) :
    ∀ (u : Node), ∀ p ∈ g.adjL u, (0 : Int) ≤ p.2 := by
  intro u p hp
  cases hfind : g.adjGet u with
  | none => simp [Graph.adjL, hfind] at hp
  | some es =>
    rw [Graph.adjL, hfind] at hp
    exact h (u, es) (adjFind_mem hfind) p hp

theorem walk_cost_nonneg {g : Graph} (h : g.nonnegW) {s v : Node} {c : Int}
    (hw : Walk g s v c) : 0 ≤ c := by
  induction hw with
  | nil => exact le_refl 0
  | snoc hw hmem ih => exact add_nonneg ih (nonnegW_adjL h _ _ hmem)

/-! ## Claim C8: an undirected self-loop is stored twice -/

/-- Claim C8: for every node `u` and weight `w`, `add_edge(u, u, w, Both)`
appends two identical adjacency entries `(u, w)` to `u`'s adjacency list. -/
theorem add_edge_self_loop_both_doubles (g : Graph) (u : Node) (w : Weight) :
    (g.add_edge u u w .Both).adjL u = g.adjL u ++ [(u, w), (u, w)] := by
  rw [adjL_add_edge_both, if_pos rfl, if_pos rfl, List.append_assoc]
  rfl

/-! ## Claim C4: the DFS trace of test scenario 1 -/

/-- The graph of scenario 1: `(1→2,10,Single)`, `(2→4,10,Both)`,
`(3→4,10,Single)`, `(4→3,10,Single)`. -/
def g4 : Graph :=
  (((Graph.new.add_edge 1 2 10 .Single).add_edge 2 4 10 .Both).add_edge
      3 4 10 .Single).add_edge 4 3 10 .Single

/-- Claim C4 counterexample: on the scenario-1 graph, `dfs(1)` does not stop
at the node sequence `1, 2, 4`: node `3` is visited as well (the edge
`add_edge(4, 3, 10, Single)` makes it reachable from `1` through `4`), so the
trace is `1, 2, 4, 3` with a third edge event `(4, 3)`. -/
theorem dfs_scenario1_visits_three :
    (g4.dfs 1).map Trace.nodes = some [1, 2, 4, 3] ∧
      (g4.dfs 1).map Trace.nodes ≠ some [1, 2, 4] := by
  exact ⟨rfl, by decide⟩

/-- Claim C4 (amended): on the scenario-1 graph, `dfs(1)` produces the node
sequence `1, 2, 4, 3` with edge events `(1, 2)`, `(2, 4)` and `(4, 3)`;
node `3` is reachable from `1` (via `2` and `4`), hence present. -/
theorem dfs_scenario1_trace :
    g4.dfs 1 = some ⟨[1, 2, 4, 3], [(1, 2), (2, 4), (4, 3)]⟩ ∧ Reach g4 1 3 := by
  have w1 : Walk g4 1 2 (0 + 10) := Walk.snoc Walk.nil (by decide)
  have w2 : Walk g4 1 4 (0 + 10 + 10) := Walk.snoc w1 (by decide)
  have w3 : Walk g4 1 3 (0 + 10 + 10 + 10) := Walk.snoc w2 (by decide)
  exact ⟨rfl, ⟨_, w3⟩⟩

/-! ## Claim C5: what `edges()` de-duplicates -/

/-- The normalised unordered key of a returned triple. -/
def toKey (t : Node × Node × Weight) : Node × Node := normKey t.1 t.2.1

/-- The inner fold of `Graph::edges` over one adjacency list. -/
def edgesFoldI (u : Node) (l : List (Node × Weight))
    (acc : List (Node × Node × Weight) × List (Node × Node)) :
    List (Node × Node × Weight) × List (Node × Node) :=
  l.foldl (edgesStep u) acc

/-- The outer fold of `Graph::edges` over the adjacency map. -/
def edgesFoldO (adj : List (Node × List (Node × Weight)))
    (acc : List (Node × Node × Weight) × List (Node × Node)) :
    List (Node × Node × Weight) × List (Node × Node) :=
  adj.foldl (fun acc kv => kv.2.foldl (edgesStep kv.1) acc) acc

theorem edges_eq_fold (g : Graph) : g.edges = (edgesFoldO g.adj ([], [])).1 := rfl

/-- Some unordered pair of `g` has an adjacency entry whose normalised key
is `p`. -/
def HasPair (g : Graph) (p : Node × Node) : Prop :=
  ∃ u v w, (v, w) ∈ g.adjL u ∧ normKey u v = p

/-- The `seen` component accumulates exactly the normalised keys of the
scanned entries. -/
theorem edgesFoldI_seen (u : Node) : ∀ (l : List (Node × Weight))
    (acc : List (Node × Node × Weight) × List (Node × Node)) (p : Node × Node),
    p ∈ (edgesFoldI u l acc).2 ↔ p ∈ acc.2 ∨ ∃ vw ∈ l, normKey u vw.1 = p := by
  intro l
  induction l with
  | nil => intro acc p; simp [edgesFoldI]
  | cons vw rest ih =>
    intro acc p
    have step : edgesFoldI u (vw :: rest) acc = edgesFoldI u rest (edgesStep u acc vw) := rfl
    rw [step, ih]
    by_cases hk : normKey u vw.1 ∈ acc.2
    · simp only [edgesStep, hk, if_true]
      constructor
      · rintro (h | ⟨x, hx, he⟩)
        · exact Or.inl h
        · exact Or.inr ⟨x, List.mem_cons_of_mem _ hx, he⟩
      · rintro (h | ⟨x, hx, he⟩)
        · exact Or.inl h
        · rcases List.mem_cons.mp hx with rfl | hx
          · exact Or.inl (he ▸ hk)
          · exact Or.inr ⟨x, hx, he⟩
    · simp only [edgesStep, hk, if_false]
      constructor
      · rintro (h | ⟨x, hx, he⟩)
        · rcases List.mem_cons.mp h with rfl | h
          · exact Or.inr ⟨vw, List.mem_cons_self _ _, rfl⟩
          · exact Or.inl h
        · exact Or.inr ⟨x, List.mem_cons_of_mem _ hx, he⟩
      · rintro (h | ⟨x, hx, he⟩)
        · exact Or.inl (List.mem_cons_of_mem _ h)
        · rcases List.mem_cons.mp hx with rfl | hx
          · exact Or.inl (he ▸ List.mem_cons_self _ _)
          · exact Or.inr ⟨x, hx, he⟩

theorem edgesFoldO_seen : ∀ (adj : List (Node × List (Node × Weight)))
    (acc : List (Node × Node × Weight) × List (Node × Node)) (p : Node × Node),
    p ∈ (edgesFoldO adj acc).2 ↔
      p ∈ acc.2 ∨ ∃ kv ∈ adj, ∃ vw ∈ kv.2, normKey kv.1 vw.1 = p := by
  intro adj
  induction adj with
  | nil => intro acc p; simp [edgesFoldO]
  | cons kv rest ih =>
    intro acc p
    have step : edgesFoldO (kv :: rest) acc = edgesFoldO rest (edgesFoldI kv.1 kv.2 acc) := rfl
    rw [step, ih, edgesFoldI_seen]
    constructor
    · rintro ((h | ⟨vw, hvw, he⟩) | ⟨kv2, hkv2, vw, hvw, he⟩)
      · exact Or.inl h
      · exact Or.inr ⟨kv, List.mem_cons_self _ _, vw, hvw, he⟩
      · exact Or.inr ⟨kv2, List.mem_cons_of_mem _ hkv2, vw, hvw, he⟩
    · rintro (h | ⟨kv2, hkv2, vw, hvw, he⟩)
      · exact Or.inl (Or.inl h)
      · rcases List.mem_cons.mp hkv2 with rfl | hkv2
        · exact Or.inl (Or.inr ⟨vw, hvw, he⟩)
        · exact Or.inr ⟨kv2, hkv2, vw, hvw, he⟩

/-- Every triple accumulated by the inner fold satisfies any predicate that
holds on the accumulator and on the scanned entries. -/
theorem edgesFoldI_sound (Q : Node × Node × Weight → Prop) (u : Node) :
    ∀ (l : List (Node × Weight)) (acc : List (Node × Node × Weight) × List (Node × Node)),
    (∀ t ∈ acc.1, Q t) → (∀ vw ∈ l, Q (u, vw.1, vw.2)) →
    ∀ t ∈ (edgesFoldI u l acc).1, Q t := by
  intro l
  induction l with
  | nil => intro acc hacc _ t ht; exact hacc t ht
  | cons vw rest ih =>
    intro acc hacc hl t ht
    have step : edgesFoldI u (vw :: rest) acc = edgesFoldI u rest (edgesStep u acc vw) := rfl
    rw [step] at ht
    refine ih (edgesStep u acc vw) ?_ (fun x hx => hl x (List.mem_cons_of_mem _ hx)) t ht
    intro x hx
    by_cases hk : normKey u vw.1 ∈ acc.2
    · rw [edgesStep, if_pos hk] at hx
      exact hacc x hx
    · rw [edgesStep, if_neg hk] at hx
      rcases List.mem_append.mp hx with hx | hx
      · exact hacc x hx
      · rcases List.mem_singleton.mp hx with rfl
        exact hl vw (List.mem_cons_self _ _)

theorem edgesFoldO_sound (Q : Node × Node × Weight → Prop) :
    ∀ (adj : List (Node × List (Node × Weight)))
      (acc : List (Node × Node × Weight) × List (Node × Node)),
    (∀ t ∈ acc.1, Q t) → (∀ kv ∈ adj, ∀ vw ∈ kv.2, Q (kv.1, vw.1, vw.2)) →
    ∀ t ∈ (edgesFoldO adj acc).1, Q t := by
  intro adj
  induction adj with
  | nil => intro acc hacc _ t ht; exact hacc t ht
  | cons kv rest ih =>
    intro acc hacc hadj t ht
    have step : edgesFoldO (kv :: rest) acc = edgesFoldO rest (edgesFoldI kv.1 kv.2 acc) := rfl
    rw [step] at ht
    refine ih _ ?_ (fun x hx => hadj x (List.mem_cons_of_mem _ hx)) t ht
    exact edgesFoldI_sound Q kv.1 kv.2 acc hacc (fun vw hvw => hadj kv (List.mem_cons_self _ _) vw hvw)

/-- The `seen` set and the result keys coincide, and the result keys stay
duplicate-free, through the inner fold. -/
theorem edgesFoldI_sync (u : Node) : ∀ (l : List (Node × Weight))
    (acc : List (Node × Node × Weight) × List (Node × Node)),
    ((∀ q, q ∈ acc.2 ↔ q ∈ acc.1.map toKey) ∧ (acc.1.map toKey).Nodup) →
    ((∀ q, q ∈ (edgesFoldI u l acc).2 ↔ q ∈ (edgesFoldI u l acc).1.map toKey) ∧
      ((edgesFoldI u l acc).1.map toKey).Nodup) := by
  intro l
  induction l with
  | nil => intro acc h; exact h
  | cons vw rest ih =>
    intro acc h
    have step : edgesFoldI u (vw :: rest) acc = edgesFoldI u rest (edgesStep u acc vw) := rfl
    rw [step]
    refine ih (edgesStep u acc vw) ?_
    by_cases hk : normKey u vw.1 ∈ acc.2
    · rw [edgesStep, if_pos hk]; exact h
    · rw [edgesStep, if_neg hk]
      have hnotin : normKey u vw.1 ∉ acc.1.map toKey := fun hmem => hk ((h.1 _).mpr hmem)
      constructor
      · intro q
        simp only [List.mem_cons, List.map_append, List.mem_append, List.map_cons,
          List.map_nil, List.mem_singleton, h.1 q, toKey]
        tauto
      · simp only [List.map_append, List.map_cons, List.map_nil]
        rw [List.nodup_append]
        refine ⟨h.2, List.nodup_singleton _, ?_⟩
        intro a ha hb
        rcases List.mem_singleton.mp hb with rfl
        exact hnotin ha

theorem edgesFoldO_sync : ∀ (adj : List (Node × List (Node × Weight)))
    (acc : List (Node × Node × Weight) × List (Node × Node)),
    ((∀ q, q ∈ acc.2 ↔ q ∈ acc.1.map toKey) ∧ (acc.1.map toKey).Nodup) →
    ((∀ q, q ∈ (edgesFoldO adj acc).2 ↔ q ∈ (edgesFoldO adj acc).1.map toKey) ∧
      ((edgesFoldO adj acc).1.map toKey).Nodup) := by
  intro adj
  induction adj with
  | nil => intro acc h; exact h
  | cons kv rest ih =>
    intro acc h
    exact ih (edgesFoldI kv.1 kv.2 acc) (edgesFoldI_sync kv.1 kv.2 acc h)

/-- With duplicate-free keys, a map entry is found by `adjFind`. -/
theorem WF_adjFind {g : Graph} (hwf : g.WF) : ∀ {u : Node} {es : List (Node × Weight)},
    (u, es) ∈ g.adj → adjFind g.adj u = some es := by
  have : ∀ (l : List (Node × List (Node × Weight))), (l.map Prod.fst).Nodup →
      ∀ {u : Node} {es : List (Node × Weight)}, (u, es) ∈ l → adjFind l u = some es := by
    intro l
    induction l with
    | nil => intro _ u es h; simp at h
    | cons kv rest ih =>
      obtain ⟨k, l1⟩ := kv
      intro hnd u es h
      rw [List.map_cons, List.nodup_cons] at hnd
      rcases List.mem_cons.mp h with heq | h
      · obtain ⟨rfl, rfl⟩ := Prod.mk.injEq .. ▸ heq
        simp [adjFind]
      · have hne : k ≠ u := by
          intro he
          exact hnd.1 (he ▸ List.mem_map.mpr ⟨(u, es), h, rfl⟩)
        simp only [adjFind, hne, if_false]
        exact ih hnd.2 h
  intro u es h
  exact this g.adj hwf h

/-- The graph of the parallel-edge counterexample: two separate `Single`
insertions between the same pair of nodes. -/
def gPar : Graph := (Graph.new.add_edge 1 2 5 .Single).add_edge 1 2 7 .Single

/-- Claim C5 counterexample: the graph holds two distinct logical edges
`(1→2, 5)` and `(1→2, 7)` coming from two separate insertions (not the two
mirrored halves of one `Both` insertion), yet `edges()` merges them and
returns a single triple. -/
theorem edges_merges_parallel_edges :
    gPar.adjL 1 = [(2, 5), (2, 7)] ∧ gPar.edges = [(1, 2, 5)] :=
  ⟨rfl, rfl⟩

/-- Claim C5 (amended): for every well-formed graph, `edges()` returns
exactly one `(tail, head, weight)` triple per unordered node pair that has at
least one adjacency entry — the returned keys are duplicate-free, a key is
returned iff some adjacency entry produces it, and each returned triple is an
actual adjacency entry.  All adjacency entries between the same unordered
pair are merged into that single triple, including distinct logical
(parallel or oppositely-inserted) edges, not only the two mirrored entries
of one `Undirected` insertion. -/
theorem edges_one_triple_per_pair (g : Graph) (hwf : g.WF) :
    ((g.edges.map toKey).Nodup ∧
      (∀ p, p ∈ g.edges.map toKey ↔ HasPair g p)) ∧
      ∀ t ∈ g.edges, (t.2.1, t.2.2) ∈ g.adjL t.1 := by
  have hsync := edgesFoldO_sync g.adj ([], []) (by simp)
  have hsound : ∀ t ∈ g.edges, (t.2.1, t.2.2) ∈ g.adjL t.1 := by
    rw [edges_eq_fold]
    refine edgesFoldO_sound _ g.adj ([], []) (by simp) ?_
    intro kv hkv vw hvw
    have : g.adjL kv.1 = kv.2 := by
      rw [Graph.adjL, Graph.adjGet, WF_adjFind hwf hkv]
      rfl
    simpa [this] using hvw
  refine ⟨⟨by rw [edges_eq_fold]; exact hsync.2, ?_⟩, hsound⟩
  intro p
  constructor
  · intro hp
    rcases List.mem_map.mp hp with ⟨t, ht, rfl⟩
    exact ⟨t.1, t.2.1, t.2.2, hsound t ht, rfl⟩
  · rintro ⟨u, v, w, hmem, rfl⟩
    have hfind : ∃ es, adjFind g.adj u = some es ∧ (v, w) ∈ es := by
      cases hfind : adjFind g.adj u with
      | none => rw [Graph.adjL, Graph.adjGet, hfind] at hmem; simp at hmem
      | some es =>
        rw [Graph.adjL, Graph.adjGet, hfind] at hmem
        exact ⟨es, rfl, hmem⟩
    obtain ⟨es, hfind, hes⟩ := hfind
    have hin : normKey u v ∈ (edgesFoldO g.adj ([], [])).2 := by
      rw [edgesFoldO_seen]
      exact Or.inr ⟨(u, es), adjFind_mem hfind, (v, w), hes, rfl⟩
    rw [edges_eq_fold]
    exact (hsync.1 _).mp hin

/-- Witness for the amended claim C5, at the parallel-edge graph. -/
theorem edges_one_triple_per_pair_witness :
    gPar.WF ∧
      (((gPar.edges.map toKey).Nodup ∧
        (∀ p, p ∈ gPar.edges.map toKey ↔ HasPair gPar p)) ∧
        ∀ t ∈ gPar.edges, (t.2.1, t.2.2) ∈ gPar.adjL t.1) :=
  ⟨by unfold Graph.WF; decide, edges_one_triple_per_pair gPar (by unfold Graph.WF; decide)⟩

/-! ## Claim C6: a source without adjacency entries -/

/-- Claim C6: for every source node `s` with no adjacency entries (isolated
or absent from the graph), each of `dfs(s)`, `bfs(s)`, `dijkstra(s)` and
`prim(s)` returns a trace with exactly the single node event `s` and no edge
events; `prim`'s `total_cost` is `0`, and `dijkstra`'s distance map is
exactly `{s: 0}` with an empty predecessor map. -/
theorem isolated_source_traces (g : Graph) (s : Node) (hs : g.adjL s = []) :
    g.dfs s = some ⟨[s], []⟩ ∧
      g.bfs s = some ⟨[s], [s], [], [], 0⟩ ∧
      g.dijkstra s = some ⟨[(s, 0)], [], [s], [], [s], []⟩ ∧
      g.prim s = some ⟨[(s, 0)], [s], [s], [], [], [], 0⟩ := by
  obtain ⟨n, hn⟩ : ∃ n, g.fuel0 = n + 2 := ⟨g.entryCount + 1, rfl⟩
  refine ⟨?_, ?_, ?_, ?_⟩
  · rw [Graph.dfs, Graph.dfsF, hn]
    simp [dfsVisit, dfsScan, hs]
  · rw [Graph.bfs, Graph.bfsF, hn]
    simp [bfsLoop, bfsScan, hs]
  · rw [Graph.dijkstra, Graph.dijkstraF, dijkInit, hn]
    simp [dijkLoop, dijkRelax, popMin, mget, hs, gtD]
  · rw [Graph.prim, Graph.primF, primInit, hn]
    simp [primLoop, primRelax, popMin, mget, hs, gtD]

/-- Witness for claim C6: the empty graph with source `7`. -/
theorem isolated_source_traces_witness :
    Graph.new.adjL 7 = [] ∧
      (Graph.new.dfs 7 = some ⟨[7], []⟩ ∧
        Graph.new.bfs 7 = some ⟨[7], [7], [], [], 0⟩ ∧
        Graph.new.dijkstra 7 = some ⟨[(7, 0)], [], [7], [], [7], []⟩ ∧
        Graph.new.prim 7 = some ⟨[(7, 0)], [7], [7], [], [], [], 0⟩) :=
  ⟨rfl, isolated_source_traces Graph.new 7 rfl⟩

/-! ## Claim C10: the BFS error branch is dead -/

theorem bfsScan_errs (u : Node) : ∀ (l : List (Node × Weight)) (st : BfsState),
    (bfsScan u l st).errs = st.errs := by
  intro l
  induction l with
  | nil => intro st; rfl
  | cons vw rest ih =>
    intro st
    obtain ⟨v, w⟩ := vw
    show (bfsScan u rest _).errs = st.errs
    rw [ih]
    by_cases hv : v ∈ st.visited <;> simp [hv]

theorem bfsLoop_errs (g : Graph) : ∀ (n : Nat) (st st' : BfsState),
    bfsLoop g n st = some st' → st'.errs = st.errs := by
  intro n
  induction n with
  | zero => intro st st' h; simp [bfsLoop] at h
  | succ n ih =>
    intro st st' h
    rw [bfsLoop] at h
    by_cases hq : st.q.isEmpty
    · rw [if_pos hq] at h
      rw [Option.some.inj h]
    · rw [if_neg hq] at h
      cases hl : st.q with
      | nil => rw [hl, List.isEmpty_nil] at hq; exact absurd rfl hq
      | cons u rest =>
        rw [hl] at h
        have := ih _ _ h
        rw [this, bfsScan_errs]

/-- Claim C10: in `bfs` the dequeue inside the loop never yields `None` (the
loop body runs only when the queue is non-empty), so the branch that prints
`"error"` is unreachable for every graph and source: the error counter of
the returned state is always `0`. -/
theorem bfs_error_branch_unreachable (g : Graph) (s : Node) (st : BfsState)
    (h : g.bfs s = some st) : st.errs = 0 := by
  rw [Graph.bfs, Graph.bfsF] at h
  exact bfsLoop_errs g g.fuel0 _ st h

/-- Witness for claim C10 at the scenario-1 graph. -/
theorem bfs_error_branch_unreachable_witness :
    g4.bfs 1 = some ⟨[3, 4, 2, 1], [1, 2, 4, 3], [(1, 2), (2, 4), (4, 3)], [], 0⟩ ∧
      (⟨[3, 4, 2, 1], [1, 2, 4, 3], [(1, 2), (2, 4), (4, 3)], [], 0⟩ : BfsState).errs = 0 :=
  ⟨rfl, bfs_error_branch_unreachable g4 1 _ rfl⟩

/-! ## Counting infrastructure for termination and coverage

Every node a traversal can newly visit is either the source or the head of
some adjacency entry, so the number of iterations is controlled by the count
of not-yet-visited members of this finite universe. -/

/-- The heads of all adjacency entries. -/
def headsOf : List (Node × List (Node × Weight)) → List Node
  | [] => []
  | kv :: rest => kv.2.map Prod.fst ++ headsOf rest

/-- The universe of nodes a traversal from `s` can ever visit. -/
def univList (g : Graph) (s : Node) : List Node := (s :: headsOf g.adj).dedup

/-- The number of not-yet-visited universe members. -/
def unvisCnt (g : Graph) (s : Node) (vis : List Node) : Nat :=
  ((univList g s).filter (fun v => decide (v ∉ vis))).length

theorem headsOf_mem : ∀ {l : List (Node × List (Node × Weight))} {u : Node}
    {es : List (Node × Weight)} {p : Node × Weight},
    (u, es) ∈ l → p ∈ es → p.1 ∈ headsOf l := by
  intro l
  induction l with
  | nil => intro u es p h _; simp at h
  | cons kv rest ih =>
    intro u es p h hp
    rw [headsOf]
    rcases List.mem_cons.mp h with rfl | h
    · exact List.mem_append_left _ (List.mem_map.mpr ⟨p, hp, rfl⟩)
    · exact List.mem_append_right _ (ih h hp)

theorem headsOf_length : ∀ (l : List (Node × List (Node × Weight))),
    (headsOf l).length = (l.map (fun kv => kv.2.length)).sum := by
  intro l
  induction l with
  | nil => rfl
  | cons kv rest ih => simp [headsOf, ih]

theorem univList_nodup (g : Graph) (s : Node) : (univList g s).Nodup :=
  List.nodup_dedup _

theorem univList_mem_s (g : Graph) (s : Node) : s ∈ univList g s :=
  List.mem_dedup.mpr (List.mem_cons_self _ _)

theorem univList_mem_adj {g : Graph} {s u : Node} {p : Node × Weight}
    (h : p ∈ g.adjL u) : p.1 ∈ univList g s := by
  refine List.mem_dedup.mpr (List.mem_cons_of_mem _ ?_)
  cases hfind : g.adjGet u with
  | none => rw [Graph.adjL, hfind] at h; simp at h
  | some es =>
    rw [Graph.adjL, hfind] at h
    exact headsOf_mem (adjFind_mem hfind) h

theorem univList_length (g : Graph) (s : Node) :
    (univList g s).length ≤ g.entryCount + 1 := by
  have h1 : (univList g s).length ≤ (s :: headsOf g.adj).length :=
    (List.dedup_sublist _).length_le
  rw [List.length_cons, headsOf_length] at h1
  exact h1

theorem length_filter_implies {p q : Node → Bool}
    (h : ∀ a, q a = true → p a = true) :
    ∀ (l : List Node), (l.filter q).length ≤ (l.filter p).length := by
  intro l
  induction l with
  | nil => exact le_refl 0
  | cons a rest ih =>
    by_cases hq : q a = true
    · rw [List.filter_cons_of_pos hq, List.filter_cons_of_pos (h a hq)]
      simpa using ih
    · rw [List.filter_cons_of_neg (by simpa using hq)]
      by_cases hp : p a = true
      · rw [List.filter_cons_of_pos hp]
        exact le_trans ih (by simp)
      · rw [List.filter_cons_of_neg (by simpa using hp)]
        exact ih

theorem unvisCnt_mono {g : Graph} {s : Node} {vis vis' : List Node}
    (h : ∀ x ∈ vis, x ∈ vis') : unvisCnt g s vis' ≤ unvisCnt g s vis := by
  refine length_filter_implies ?_ _
  intro a ha
  simp only [decide_eq_true_eq] at ha ⊢
  intro hmem
  exact ha (h a hmem)

theorem filter_notmem_cons {v : Node} {vis : List Node} (hv : v ∉ vis) :
    ∀ (L : List Node), L.Nodup → v ∈ L →
    (L.filter (fun x => decide (x ∉ v :: vis))).length + 1 =
      (L.filter (fun x => decide (x ∉ vis))).length := by
  intro L
  induction L with
  | nil => intro _ h; simp at h
  | cons a rest ih =>
    intro hnd hmem
    rw [List.nodup_cons] at hnd
    rcases List.mem_cons.mp hmem with heq | hmem
    · subst heq
      rw [List.filter_cons_of_neg (by simp), List.filter_cons_of_pos (by simpa using hv)]
      have heq2 : rest.filter (fun x => decide (x ∉ v :: vis)) =
          rest.filter (fun x => decide (x ∉ vis)) := by
        refine List.filter_congr ?_
        intro x hx
        have hxa : x ≠ v := fun he => hnd.1 (he ▸ hx)
        simp [List.mem_cons, hxa]
      rw [heq2, List.length_cons]
    · have hav : a ≠ v := fun he => hnd.1 (he ▸ hmem)
      by_cases hp : a ∈ vis
      · rw [List.filter_cons_of_neg (by simp [List.mem_cons, hp]),
          List.filter_cons_of_neg (by simp [hp])]
        exact ih hnd.2 hmem
      · rw [List.filter_cons_of_pos (by simp [List.mem_cons, hav, hp]),
          List.filter_cons_of_pos (by simpa using hp), List.length_cons, List.length_cons,
          Nat.succ_add]
        exact congrArg Nat.succ (ih hnd.2 hmem)

theorem unvisCnt_insert {g : Graph} {s v : Node} {vis : List Node}
    (hu : v ∈ univList g s) (hv : v ∉ vis) :
    unvisCnt g s (v :: vis) + 1 = unvisCnt g s vis :=
  filter_notmem_cons hv (univList g s) (univList_nodup g s) hu

theorem unvisCnt_le (g : Graph) (s : Node) (vis : List Node) :
    unvisCnt g s vis ≤ g.entryCount + 1 :=
  le_trans (List.length_filter_le _ _) (univList_length g s)

/-! ## BFS: invariant, termination and coverage -/

/-- The loop invariant of `Graph::bfs`. -/
structure BfsInv (g : Graph) (s : Node) (st : BfsState) : Prop where
  nodes_eq : st.nodes = st.visited.reverse
  nodup : st.visited.Nodup
  q_sub : ∀ v ∈ st.q, v ∈ st.visited
  q_nodup : st.q.Nodup
  closure : ∀ x ∈ st.visited, x ∈ st.q ∨ ∀ p ∈ g.adjL x, p.1 ∈ st.visited
  sound : ∀ v ∈ st.visited, Reach g s v
  head_s : ∃ l, st.nodes = s :: l

/-- The fields of `BfsInv` with the closure obligation waived for the node
`u` whose adjacency list is being scanned. -/
structure BfsScanInv (g : Graph) (s u : Node) (st : BfsState) : Prop where
  nodes_eq : st.nodes = st.visited.reverse
  nodup : st.visited.Nodup
  q_sub : ∀ v ∈ st.q, v ∈ st.visited
  q_nodup : st.q.Nodup
  closure : ∀ x ∈ st.visited, x ∈ st.q ∨ x = u ∨ ∀ p ∈ g.adjL x, p.1 ∈ st.visited
  sound : ∀ v ∈ st.visited, Reach g s v
  head_s : ∃ l, st.nodes = s :: l

theorem bfsScan_spec (g : Graph) (s u : Node) (hu : Reach g s u) :
    ∀ (l : List (Node × Weight)) (st : BfsState),
    (∀ p ∈ l, p ∈ g.adjL u) → BfsScanInv g s u st →
    (∀ v ∈ st.visited, v ∈ (bfsScan u l st).visited) ∧
      (∃ qt, (bfsScan u l st).q = st.q ++ qt) ∧
      BfsScanInv g s u (bfsScan u l st) ∧
      (∀ p ∈ l, p.1 ∈ (bfsScan u l st).visited) ∧
      (bfsScan u l st).q.length + unvisCnt g s (bfsScan u l st).visited =
        st.q.length + unvisCnt g s st.visited := by
  intro l
  induction l with
  | nil =>
    intro st _ hinv
    refine ⟨fun v hv => hv, ⟨[], (List.append_nil _).symm⟩, hinv, ?_, rfl⟩
    intro p hp
    simp at hp
  | cons vw rest ih =>
    intro st hl hinv
    obtain ⟨v, w⟩ := vw
    have hvw : (v, w) ∈ g.adjL u := hl (v, w) (List.mem_cons_self _ _)
    by_cases hv : v ∈ st.visited
    · have step : bfsScan u ((v, w) :: rest) st = bfsScan u rest st := by
        simp [bfsScan, hv]
      rw [step]
      obtain ⟨hsub, hq, hinv', hheads, hcnt⟩ :=
        ih st (fun p hp => hl p (List.mem_cons_of_mem _ hp)) hinv
      refine ⟨hsub, hq, hinv', ?_, hcnt⟩
      intro p hp
      rcases List.mem_cons.mp hp with rfl | hp
      · exact hsub v hv
      · exact hheads p hp
    · set st1 : BfsState :=
        ⟨v :: st.visited, st.nodes ++ [v], st.edges ++ [(u, v)], st.q ++ [v], st.errs⟩ with hst1
      have step : bfsScan u ((v, w) :: rest) st = bfsScan u rest st1 := by
        simp [bfsScan, hv, hst1]
      have hinv1 : BfsScanInv g s u st1 := by
        refine ⟨?_, ?_, ?_, ?_, ?_, ?_, ?_⟩
        · show st.nodes ++ [v] = (v :: st.visited).reverse
          rw [List.reverse_cons, hinv.nodes_eq]
        · exact List.nodup_cons.mpr ⟨hv, hinv.nodup⟩
        · intro x hx
          rcases List.mem_append.mp hx with hx | hx
          · exact List.mem_cons_of_mem _ (hinv.q_sub x hx)
          · rcases List.mem_singleton.mp hx with rfl
            exact List.mem_cons_self _ _
        · rw [List.nodup_append]
          exact ⟨hinv.q_nodup, List.nodup_singleton _,
            fun a ha hb => hv ((List.mem_singleton.mp hb) ▸ hinv.q_sub a ha)⟩
        · intro x hx
          rcases List.mem_cons.mp hx with rfl | hx
          · exact Or.inl (List.mem_append_right _ (List.mem_singleton.mpr rfl))
          · rcases hinv.closure x hx with h | h | h
            · exact Or.inl (List.mem_append_left _ h)
            · exact Or.inr (Or.inl h)
            · exact Or.inr (Or.inr fun p hp => List.mem_cons_of_mem _ (h p hp))
        · intro x hx
          rcases List.mem_cons.mp hx with rfl | hx
          · obtain ⟨c, hw⟩ := hu
            exact ⟨c + w, Walk.snoc hw hvw⟩
          · exact hinv.sound x hx
        · obtain ⟨l0, hl0⟩ := hinv.head_s
          refine ⟨l0 ++ [v], ?_⟩
          show st.nodes ++ [v] = s :: (l0 ++ [v])
          rw [hl0]
          rfl
      obtain ⟨hsub, ⟨qt, hq⟩, hinv', hheads, hcnt⟩ :=
        ih st1 (fun p hp => hl p (List.mem_cons_of_mem _ hp)) hinv1
      have hsub1 : ∀ x ∈ st.visited, x ∈ st1.visited := fun x hx => List.mem_cons_of_mem _ hx
      have hins : unvisCnt g s (v :: st.visited) + 1 = unvisCnt g s st.visited :=
        unvisCnt_insert (univList_mem_adj (s := s) hvw) hv
      have hcnt1 : st1.q.length + unvisCnt g s st1.visited =
          st.q.length + unvisCnt g s st.visited := by
        show (st.q ++ [v]).length + unvisCnt g s (v :: st.visited) =
          st.q.length + unvisCnt g s st.visited
        rw [List.length_append, List.length_singleton]
        omega
      rw [step]
      refine ⟨fun x hx => hsub _ (hsub1 x hx), ⟨[v] ++ qt, by rw [hq, hst1]; simp⟩,
        hinv', ?_, by rw [hcnt, hcnt1]⟩
      intro p hp
      rcases List.mem_cons.mp hp with rfl | hp
      · exact hsub v (List.mem_cons_self _ _)
      · exact hheads p hp

theorem bfsLoop_spec (g : Graph) (s : Node) : ∀ (n : Nat) (st : BfsState),
    BfsInv g s st → st.q.length + unvisCnt g s st.visited < n →
    ∃ st', bfsLoop g n st = some st' ∧ BfsInv g s st' ∧ st'.q = [] ∧
      ∀ v ∈ st.visited, v ∈ st'.visited := by
  intro n
  induction n with
  | zero => intro st _ hm; exact absurd hm (Nat.not_lt_zero _)
  | succ n ih =>
    intro st hinv hm
    by_cases hq : st.q.isEmpty
    · refine ⟨st, ?_, hinv, List.isEmpty_iff.mp hq, fun v hv => hv⟩
      rw [bfsLoop, if_pos hq]
    · cases hl : st.q with
      | nil => rw [hl, List.isEmpty_nil] at hq; exact absurd rfl hq
      | cons u rest =>
        set st1 : BfsState := { st with q := rest } with hst1
        have hu_vis : u ∈ st.visited := hinv.q_sub u (hl ▸ List.mem_cons_self _ _)
        have hu_reach : Reach g s u := hinv.sound u hu_vis
        have hinv1 : BfsScanInv g s u st1 := by
          have hqn : st.q.Nodup := hinv.q_nodup
          rw [hl, List.nodup_cons] at hqn
          refine ⟨hinv.nodes_eq, hinv.nodup, ?_, hqn.2, ?_, hinv.sound, hinv.head_s⟩
          · intro x hx
            exact hinv.q_sub x (hl ▸ List.mem_cons_of_mem _ hx)
          · intro x hx
            rcases hinv.closure x hx with h | h
            · rw [hl] at h
              rcases List.mem_cons.mp h with rfl | h
              · exact Or.inr (Or.inl rfl)
              · exact Or.inl h
            · exact Or.inr (Or.inr h)
        obtain ⟨hsub, ⟨qt, hq2⟩, hinv2, hheads, hcnt⟩ :=
          bfsScan_spec g s u hu_reach (g.adjL u) st1 (fun p hp => hp) hinv1
        set st2 := bfsScan u (g.adjL u) st1 with hst2
        have hinv2' : BfsInv g s st2 := by
          refine ⟨hinv2.nodes_eq, hinv2.nodup, hinv2.q_sub, hinv2.q_nodup, ?_,
            hinv2.sound, hinv2.head_s⟩
          intro x hx
          rcases hinv2.closure x hx with h | h | h
          · exact Or.inl h
          · subst h
            exact Or.inr hheads
          · exact Or.inr h
        have hm2 : st2.q.length + unvisCnt g s st2.visited < n := by
          have h1 : st1.q.length + 1 = st.q.length := by
            rw [hst1, hl]
            rfl
          have h2 : unvisCnt g s st1.visited = unvisCnt g s st.visited := rfl
          omega
        have step : bfsLoop g (n + 1) st = bfsLoop g n st2 := by
          rw [bfsLoop, if_neg hq, hl]
        obtain ⟨st', hrun, hinv', hq', hsub'⟩ := ih st2 hinv2' hm2
        refine ⟨st', by rw [step, hrun], hinv', hq', ?_⟩
        intro v hv
        exact hsub' v (hsub v hv)

/-- The run of `bfs` from any source: it terminates, and the visited set is
exactly the reachable set. -/
theorem bfs_run_spec (g : Graph) (s : Node) :
    ∃ st, g.bfs s = some st ∧ BfsInv g s st ∧ st.q = [] ∧
      ∀ v, v ∈ st.visited ↔ Reach g s v := by
  have hinv0 : BfsInv g s ⟨[s], [s], [], [s], 0⟩ := by
    refine ⟨rfl, List.nodup_singleton _, ?_, List.nodup_singleton _, ?_, ?_, ⟨[], rfl⟩⟩
    · intro v hv
      exact hv
    · intro x hx
      exact Or.inl hx
    · intro v hv
      rcases List.mem_singleton.mp hv with rfl
      exact ⟨0, Walk.nil⟩
  have hm0 : ([s] : List Node).length + unvisCnt g s [s] < g.fuel0 := by
    have := unvisCnt_le g s [s]
    rw [Graph.fuel0]
    simp only [List.length_singleton]
    omega
  obtain ⟨st', hrun, hinv', hq', _⟩ := bfsLoop_spec g s g.fuel0 _ hinv0 hm0
  refine ⟨st', hrun, hinv', hq', ?_⟩
  intro v
  constructor
  · exact hinv'.sound v
  · intro ⟨c, hw⟩
    clear hrun
    induction hw with
    | nil =>
      have := hinv'.head_s
      obtain ⟨l0, hl0⟩ := this
      have : s ∈ st'.nodes := hl0 ▸ List.mem_cons_self _ _
      rw [hinv'.nodes_eq, List.mem_reverse] at this
      exact this
    | snoc hw hmem ih =>
      rcases hinv'.closure _ ih with h | h
      · rw [hq'] at h
        exact absurd h (List.not_mem_nil _)
      · exact h _ hmem

/-! ## DFS: invariant, termination and coverage -/

/-- The parts of the DFS state invariant that do not mention the call
stack. -/
structure DfsInvD (g : Graph) (s : Node) (st : DfsState) : Prop where
  nodes_eq : st.nodes = st.visited.reverse
  nodup : st.visited.Nodup
  sound : ∀ v ∈ st.visited, Reach g s v

/-- The full specification of `dfs_helper` at a given recursion-depth fuel:
on an unvisited reachable node it succeeds, returns `false`, extends the
visited set and node sequence, and leaves every node it newly visited fully
expanded (all its adjacency heads visited). -/
def DfsVisitSpec (g : Graph) (s : Node) (fuel : Nat) : Prop :=
  ∀ (curr : Node) (st : DfsState),
    curr ∉ st.visited → Reach g s curr → curr ∈ univList g s → DfsInvD g s st →
    unvisCnt g s st.visited < fuel →
    ∃ st', dfsVisit g fuel curr st = some (st', false) ∧
      (∀ v ∈ st.visited, v ∈ st'.visited) ∧ curr ∈ st'.visited ∧ DfsInvD g s st' ∧
      (∃ tl, st'.nodes = st.nodes ++ curr :: tl) ∧
      (∀ x ∈ st'.visited, x ∉ st.visited → ∀ p ∈ g.adjL x, p.1 ∈ st'.visited)

theorem dfsScan_spec (g : Graph) (s : Node) (fuel : Nat) (IH : DfsVisitSpec g s fuel)
    (curr : Node) (hreach : Reach g s curr) :
    ∀ (l : List (Node × Weight)) (st st0 : DfsState),
    (∀ p ∈ l, p ∈ g.adjL curr) →
    (∀ v ∈ st0.visited, v ∈ st.visited) → curr ∈ st.visited → DfsInvD g s st →
    unvisCnt g s st.visited < fuel →
    (∀ x ∈ st.visited, x ∉ st0.visited → x ≠ curr → ∀ p ∈ g.adjL x, p.1 ∈ st.visited) →
    ∃ st', dfsScan (dfsVisit g fuel) curr l st = some (st', false) ∧
      (∀ v ∈ st.visited, v ∈ st'.visited) ∧ DfsInvD g s st' ∧
      (∃ tl, st'.nodes = st.nodes ++ tl) ∧
      (∀ p ∈ l, p.1 ∈ st'.visited) ∧
      (∀ x ∈ st'.visited, x ∉ st0.visited → x ≠ curr → ∀ p ∈ g.adjL x, p.1 ∈ st'.visited) := by
  intro l
  induction l with
  | nil =>
    intro st st0 _ _ hcurr hinv _ hclo
    exact ⟨st, rfl, fun v hv => hv, hinv, ⟨[], (List.append_nil _).symm⟩,
      fun p hp => absurd hp (List.not_mem_nil _), hclo⟩
  | cons vw rest ih =>
    intro st st0 hl hsub0 hcurr hinv hfuel hclo
    obtain ⟨v, w⟩ := vw
    have hvw : (v, w) ∈ g.adjL curr := hl (v, w) (List.mem_cons_self _ _)
    by_cases hv : v ∈ st.visited
    · have step : dfsScan (dfsVisit g fuel) curr ((v, w) :: rest) st =
          dfsScan (dfsVisit g fuel) curr rest st := by
        simp [dfsScan, hv]
      rw [step]
      obtain ⟨st', hrun, hsub, hinv', hnodes, hheads, hclo'⟩ :=
        ih st st0 (fun p hp => hl p (List.mem_cons_of_mem _ hp)) hsub0 hcurr hinv hfuel hclo
      refine ⟨st', hrun, hsub, hinv', hnodes, ?_, hclo'⟩
      intro p hp
      rcases List.mem_cons.mp hp with rfl | hp
      · exact hsub v hv
      · exact hheads p hp
    · set ste : DfsState := { st with edges := st.edges ++ [(curr, v)] } with hste
      have hreachv : Reach g s v := by
        obtain ⟨c, hw⟩ := hreach
        exact ⟨c + w, Walk.snoc hw hvw⟩
      have hinve : DfsInvD g s ste := ⟨hinv.nodes_eq, hinv.nodup, hinv.sound⟩
      obtain ⟨st2, hrun2, hsub2, hv2, hinv2, ⟨tl2, hnodes2⟩, hclo2⟩ :=
        IH v ste hv hreachv (univList_mem_adj hvw) hinve hfuel
      have step : dfsScan (dfsVisit g fuel) curr ((v, w) :: rest) st =
          dfsScan (dfsVisit g fuel) curr rest st2 := by
        rw [dfsScan, if_neg hv, hrun2]
        rfl
      have hsub_e : ∀ x ∈ st.visited, x ∈ st2.visited := hsub2
      have hfuel2 : unvisCnt g s st2.visited < fuel :=
        lt_of_le_of_lt (unvisCnt_mono hsub_e) hfuel
      have hclo2' : ∀ x ∈ st2.visited, x ∉ st0.visited → x ≠ curr →
          ∀ p ∈ g.adjL x, p.1 ∈ st2.visited := by
        intro x hx hx0 hxc p hp
        by_cases hxst : x ∈ st.visited
        · exact hsub_e _ (hclo x hxst hx0 hxc p hp)
        · exact hclo2 x hx hxst p hp
      obtain ⟨st', hrun, hsub, hinv', ⟨tl3, hnodes3⟩, hheads, hclo'⟩ :=
        ih st2 st0 (fun p hp => hl p (List.mem_cons_of_mem _ hp))
          (fun x hx => hsub_e _ (hsub0 x hx)) (hsub_e _ hcurr) hinv2 hfuel2 hclo2'
      rw [step]
      refine ⟨st', hrun, fun x hx => hsub _ (hsub_e x hx), hinv',
        ⟨v :: (tl2 ++ tl3), ?_⟩, ?_, hclo'⟩
      · rw [hnodes3, hnodes2]
        show (st.nodes ++ v :: tl2) ++ tl3 = st.nodes ++ v :: (tl2 ++ tl3)
        rw [List.append_assoc]
        rfl
      · intro p hp
        rcases List.mem_cons.mp hp with rfl | hp
        · exact hsub _ hv2
        · exact hheads p hp

theorem dfsVisit_spec (g : Graph) (s : Node) : ∀ (fuel : Nat), DfsVisitSpec g s fuel := by
  intro fuel
  induction fuel with
  | zero =>
    intro curr st _ _ _ _ hfuel
    exact absurd hfuel (Nat.not_lt_zero _)
  | succ fuel ih =>
    intro curr st hcurr hreach huniv hinv hfuel
    set st1 : DfsState := ⟨curr :: st.visited, st.nodes ++ [curr], st.edges⟩ with hst1
    have hinv1 : DfsInvD g s st1 := by
      refine ⟨?_, List.nodup_cons.mpr ⟨hcurr, hinv.nodup⟩, ?_⟩
      · show st.nodes ++ [curr] = (curr :: st.visited).reverse
        rw [List.reverse_cons, hinv.nodes_eq]
      · intro x hx
        rcases List.mem_cons.mp hx with rfl | hx
        · exact hreach
        · exact hinv.sound x hx
    have hins : unvisCnt g s (curr :: st.visited) + 1 = unvisCnt g s st.visited :=
      unvisCnt_insert huniv hcurr
    have hfuel1 : unvisCnt g s st1.visited < fuel := by
      show unvisCnt g s (curr :: st.visited) < fuel
      omega
    have hclo1 : ∀ x ∈ st1.visited, x ∉ st.visited → x ≠ curr →
        ∀ p ∈ g.adjL x, p.1 ∈ st1.visited := by
      intro x hx hx0 hxc
      rcases List.mem_cons.mp hx with rfl | hx
      · exact absurd rfl hxc
      · exact absurd hx hx0
    obtain ⟨st', hrun, hsub, hinv', ⟨tl, hnodes⟩, hheads, hclo'⟩ :=
      dfsScan_spec g s fuel ih curr hreach (g.adjL curr) st1 st (fun p hp => hp)
        (fun x hx => List.mem_cons_of_mem _ hx) (List.mem_cons_self _ _) hinv1 hfuel1 hclo1
    have hrun' : dfsVisit g (fuel + 1) curr st = some (st', false) := by
      rw [dfsVisit]
      exact hrun
    refine ⟨st', hrun', fun v hv => hsub _ (List.mem_cons_of_mem _ hv),
      hsub _ (List.mem_cons_self _ _), hinv', ⟨tl, ?_⟩, ?_⟩
    · rw [hnodes]
      show (st.nodes ++ [curr]) ++ tl = st.nodes ++ curr :: tl
      rw [List.append_assoc]
      rfl
    · intro x hx hx0 p hp
      by_cases hxc : x = curr
      · subst hxc
        exact hheads p hp
      · exact hclo' x hx hx0 hxc p hp

/-- The run of `dfs` from any source: it terminates, and the node trace is
exactly the reachable set, source first, without duplicates. -/
theorem dfs_run_spec (g : Graph) (s : Node) :
    ∃ t, g.dfs s = some t ∧ t.nodes.Nodup ∧ (∃ l, t.nodes = s :: l) ∧
      ∀ v, v ∈ t.nodes ↔ Reach g s v := by
  obtain ⟨st', hrun, _, hs_mem, hinv', ⟨tl, hnodes⟩, hclo⟩ :=
    dfsVisit_spec g s g.fuel0 s ⟨[], [], []⟩ (List.not_mem_nil _) ⟨0, Walk.nil⟩
      (univList_mem_s g s) ⟨rfl, List.nodup_nil, fun v hv => absurd hv (List.not_mem_nil _)⟩
      (lt_of_le_of_lt (unvisCnt_le g s []) (by rw [Graph.fuel0]; omega))
  refine ⟨⟨st'.nodes, st'.edges⟩, ?_, ?_, ?_, ?_⟩
  · rw [Graph.dfs, Graph.dfsF, hrun]
    rfl
  · rw [hinv'.nodes_eq]
    exact List.nodup_reverse.mpr hinv'.nodup
  · exact ⟨tl, by rw [hnodes]; rfl⟩
  · have hcompl : ∀ (v : Node) (c : Int), Walk g s v c → v ∈ st'.visited := by
      intro v c hw
      induction hw with
      | nil => exact hs_mem
      | snoc hw hmem2 ih2 => exact hclo _ ih2 (List.not_mem_nil _) _ hmem2
    intro v
    rw [hinv'.nodes_eq, List.mem_reverse]
    constructor
    · exact hinv'.sound v
    · intro ⟨c, hw⟩
      exact hcompl v c hw

/-! ## Claim C3: DFS and BFS visit exactly the reachable nodes -/

/-- Claim C3: for every graph and every source node, the node-visit sequence
returned by `dfs` and the one returned by `bfs` each contain no duplicate,
begin with the source, and contain exactly the set of nodes reachable from
the source by following adjacency entries. -/
theorem dfs_bfs_nodes_reachable (g : Graph) (s : Node) :
    (∃ t, g.dfs s = some t ∧ t.nodes.Nodup ∧ (∃ l, t.nodes = s :: l) ∧
      ∀ v, v ∈ t.nodes ↔ Reach g s v) ∧
    (∃ st, g.bfs s = some st ∧ st.nodes.Nodup ∧ (∃ l, st.nodes = s :: l) ∧
      ∀ v, v ∈ st.nodes ↔ Reach g s v) := by
  refine ⟨dfs_run_spec g s, ?_⟩
  obtain ⟨st, hrun, hinv, hq, hiff⟩ := bfs_run_spec g s
  refine ⟨st, hrun, ?_, hinv.head_s, ?_⟩
  · rw [hinv.nodes_eq]
    exact List.nodup_reverse.mpr hinv.nodup
  · intro v
    rw [hinv.nodes_eq, List.mem_reverse]
    exact hiff v

/-! ## Prim: termination measure and the trace-shape invariant -/

/-- All adjacency entries as `(tail, head, weight)` triples. -/
def entriesList : List (Node × List (Node × Weight)) → List (Node × Node × Weight)
  | [] => []
  | kv :: rest => kv.2.map (fun p => (kv.1, p.1, p.2)) ++ entriesList rest

theorem entriesList_length : ∀ (l : List (Node × List (Node × Weight))),
    (entriesList l).length = (l.map (fun kv => kv.2.length)).sum := by
  intro l
  induction l with
  | nil => rfl
  | cons kv rest ih => simp [entriesList, ih]

theorem entriesList_mem : ∀ {l : List (Node × List (Node × Weight))} {u : Node}
    {es : List (Node × Weight)} {p : Node × Weight},
    (u, es) ∈ l → p ∈ es → (u, p.1, p.2) ∈ entriesList l := by
  intro l
  induction l with
  | nil => intro u es p h _; simp at h
  | cons kv rest ih =>
    intro u es p h hp
    rw [entriesList]
    rcases List.mem_cons.mp h with rfl | h
    · exact List.mem_append_left _ (List.mem_map.mpr ⟨p, hp, rfl⟩)
    · exact List.mem_append_right _ (ih h hp)

theorem entriesList_of_adjL {g : Graph} {u : Node} {p : Node × Weight}
    (h : p ∈ g.adjL u) : (u, p.1, p.2) ∈ entriesList g.adj := by
  cases hfind : g.adjGet u with
  | none => rw [Graph.adjL, hfind] at h; simp at h
  | some es =>
    rw [Graph.adjL, hfind] at h
    exact entriesList_mem (adjFind_mem hfind) h

theorem filterLen_le_of_imp {α : Type} {p q : α → Bool}
    (h : ∀ a, q a = true → p a = true) :
    ∀ (l : List α), (l.filter q).length ≤ (l.filter p).length := by
  intro l
  induction l with
  | nil => exact le_refl 0
  | cons a rest ih =>
    by_cases hq : q a = true
    · rw [List.filter_cons_of_pos hq, List.filter_cons_of_pos (h a hq)]
      simpa using ih
    · rw [List.filter_cons_of_neg (by simpa using hq)]
      by_cases hp : p a = true
      · rw [List.filter_cons_of_pos hp]
        exact le_trans ih (by simp)
      · rw [List.filter_cons_of_neg (by simpa using hp)]
        exact ih

theorem filterLen_lt_of_witness {α : Type} {p q : α → Bool}
    (h : ∀ a, q a = true → p a = true) :
    ∀ {l : List α} {x : α}, x ∈ l → p x = true → q x = false →
    (l.filter q).length < (l.filter p).length := by
  intro l
  induction l with
  | nil => intro x hx; exact absurd hx (List.not_mem_nil _)
  | cons a rest ih =>
    intro x hx hpx hqx
    rcases List.mem_cons.mp hx with rfl | hx
    · rw [List.filter_cons_of_neg (by simp [hqx]), List.filter_cons_of_pos hpx,
        List.length_cons]
      exact Nat.lt_succ_of_le (filterLen_le_of_imp h rest)
    · by_cases hq : q a = true
      · rw [List.filter_cons_of_pos hq, List.filter_cons_of_pos (h a hq),
          List.length_cons, List.length_cons]
        exact Nat.succ_lt_succ (ih hx hpx hqx)
      · rw [List.filter_cons_of_neg (by simpa using hq)]
        by_cases hp : p a = true
        · rw [List.filter_cons_of_pos hp, List.length_cons]
          exact Nat.lt_succ_of_le (le_of_lt (ih hx hpx hqx))
        · rw [List.filter_cons_of_neg (by simpa using hp)]
          exact ih hx hpx hqx

/-- An adjacency entry is "active" when `prim`'s relaxation could still fire
on it: its head is unbooked and its weight beats the head's current best. -/
def primActiveBD (booked : List Node) (dist : IMap) (e : Node × Node × Weight) : Bool :=
  decide (e.2.1 ∉ booked) && ltD e.2.2 (mget dist e.2.1)

/-- The number of active entries: the core of `prim`'s termination measure. -/
def activeCnt (g : Graph) (st : PrimState) : Nat :=
  ((entriesList g.adj).filter (primActiveBD st.booked st.dist)).length

theorem ltD_trans_some {w c : Int} {o : Option Int} (h : ltD c o = true)
    (hw : w < c) : ltD w o = true := by
  cases o with
  | none => rfl
  | some d =>
    simp only [ltD, decide_eq_true_eq] at h ⊢
    exact lt_trans hw h

theorem primActiveBD_mput_imp {booked : List Node} {dist : IMap} {v : Node} {w : Int}
    (hcond : ltD w (mget dist v) = true) (e : Node × Node × Weight) :
    primActiveBD booked (mput dist v w) e = true → primActiveBD booked dist e = true := by
  intro h
  simp only [primActiveBD, Bool.and_eq_true, decide_eq_true_eq] at h ⊢
  refine ⟨h.1, ?_⟩
  by_cases hv : e.2.1 = v
  · rw [hv] at h ⊢
    have h2 := h.2
    rw [mget_mput_self] at h2
    simp only [ltD, decide_eq_true_eq] at h2
    exact ltD_trans_some hcond h2
  · rw [mget_mput_ne dist hv w] at h
    exact h.2

theorem primActiveBD_booked_imp {booked : List Node} {dist : IMap} {x : Node}
    (e : Node × Node × Weight) :
    primActiveBD (x :: booked) dist e = true → primActiveBD booked dist e = true := by
  intro h
  simp only [primActiveBD, Bool.and_eq_true, decide_eq_true_eq] at h ⊢
  exact ⟨fun hmem => h.1 (List.mem_cons_of_mem _ hmem), h.2⟩

theorem mget_mput_isSome {m : IMap} {k x : Node} {v : Int}
    (h : (mget m x).isSome) : (mget (mput m k v) x).isSome := by
  by_cases hx : x = k
  · subst hx
    rw [mget_mput_self]
    rfl
  · rw [mget_mput_ne m hx v]
    exact h

/-- The state produced by a firing `prim` relaxation step. -/
def primPush (st : PrimState) (u v : Node) (w : Int) : PrimState :=
  { st with
    dist := mput st.dist v w
    parent := mput st.parent v u
    pq := ⟨w, v⟩ :: st.pq }

theorem primRelax_cons (u v : Node) (w : Int) (rest : List (Node × Weight))
    (st : PrimState) :
    primRelax u ((v, w) :: rest) st =
      primRelax u rest
        (if v ∈ st.booked then st
         else if ltD w (mget st.dist v) = true then primPush st u v w else st) := rfl

theorem primRelax_frame (u : Node) : ∀ (l : List (Node × Weight)) (st : PrimState),
    (primRelax u l st).booked = st.booked ∧ (primRelax u l st).nodes = st.nodes ∧
      (primRelax u l st).edges = st.edges ∧ (primRelax u l st).total = st.total := by
  intro l
  induction l with
  | nil => intro st; exact ⟨rfl, rfl, rfl, rfl⟩
  | cons vw rest ih =>
    intro st
    obtain ⟨v, w⟩ := vw
    rw [primRelax_cons]
    by_cases hv : v ∈ st.booked
    · rw [if_pos hv]
      exact ih st
    · rw [if_neg hv]
      by_cases hc : ltD w (mget st.dist v) = true
      · rw [if_pos hc]
        exact ih _
      · rw [if_neg hc]
        exact ih st

theorem primRelax_measure (g : Graph) (u : Node) :
    ∀ (l : List (Node × Weight)) (st : PrimState),
    (∀ p ∈ l, (u, p.1, p.2) ∈ entriesList g.adj) →
    (primRelax u l st).pq.length + activeCnt g (primRelax u l st) ≤
      st.pq.length + activeCnt g st := by
  intro l
  induction l with
  | nil => intro st _; exact le_refl _
  | cons vw rest ih =>
    intro st hl
    obtain ⟨v, w⟩ := vw
    have hmem : (u, v, w) ∈ entriesList g.adj := hl (v, w) (List.mem_cons_self _ _)
    rw [primRelax_cons]
    by_cases hv : v ∈ st.booked
    · rw [if_pos hv]
      exact ih st (fun p hp => hl p (List.mem_cons_of_mem _ hp))
    · rw [if_neg hv]
      by_cases hc : ltD w (mget st.dist v) = true
      · rw [if_pos hc]
        have hlt : activeCnt g (primPush st u v w) < activeCnt g st := by
          have heq : activeCnt g (primPush st u v w) =
              ((entriesList g.adj).filter (primActiveBD st.booked (mput st.dist v w))).length := rfl
          rw [heq]
          refine filterLen_lt_of_witness (primActiveBD_mput_imp hc) hmem ?_ ?_
          · simp only [primActiveBD, Bool.and_eq_true, decide_eq_true_eq]
            exact ⟨hv, hc⟩
          · simp only [primActiveBD]
            have hself : mget (mput st.dist v w) v = some w := mget_mput_self _ _ _
            rw [hself]
            simp [ltD]
        have h1 := ih (primPush st u v w) (fun p hp => hl p (List.mem_cons_of_mem _ hp))
        have h2 : (primPush st u v w).pq.length = st.pq.length + 1 := rfl
        omega
      · rw [if_neg hc]
        exact ih st (fun p hp => hl p (List.mem_cons_of_mem _ hp))

/-- The state after `prim` books a popped node `u` and records its tree edge
(if `u` has a recorded parent). -/
def primAccept (st : PrimState) (u : HState) (rest : List HState) : PrimState :=
  let st2 : PrimState :=
    { st with pq := rest, booked := u.node :: st.booked, nodes := st.nodes ++ [u.node] }
  match mget st2.parent u.node with
  | none => st2
  | some p => { st2 with edges := st2.edges ++ [(p, u.node)], total := st2.total + u.cost }

theorem primAccept_booked (st : PrimState) (u : HState) (rest : List HState) :
    (primAccept st u rest).booked = u.node :: st.booked := by
  simp only [primAccept]
  cases hpar : mget st.parent u.node <;> rfl

theorem primAccept_dist (st : PrimState) (u : HState) (rest : List HState) :
    (primAccept st u rest).dist = st.dist := by
  simp only [primAccept]
  cases hpar : mget st.parent u.node <;> rfl

theorem primAccept_pq (st : PrimState) (u : HState) (rest : List HState) :
    (primAccept st u rest).pq = rest := by
  simp only [primAccept]
  cases hpar : mget st.parent u.node <;> rfl

theorem primAccept_parent (st : PrimState) (u : HState) (rest : List HState) :
    (primAccept st u rest).parent = st.parent := by
  simp only [primAccept]
  cases hpar : mget st.parent u.node <;> rfl

/-- One unfolding of the `prim` loop at positive fuel. -/
theorem primLoop_succ (g : Graph) (n : Nat) (st : PrimState) :
    primLoop g (n + 1) st =
      match popMin st.pq with
      | none => some st
      | some (u, rest) =>
        if u.node ∈ st.booked then primLoop g n { st with pq := rest }
        else if gtD u.cost (mget st.dist u.node) = true then primLoop g n { st with pq := rest }
        else primLoop g n (primRelax u.node (g.adjL u.node) (primAccept st u rest)) := by
  rfl

theorem primLoop_term (g : Graph) : ∀ (n : Nat) (st : PrimState),
    st.pq.length + activeCnt g st < n → ∃ st', primLoop g n st = some st' := by
  intro n
  induction n with
  | zero => intro st hm; exact absurd hm (Nat.not_lt_zero _)
  | succ n ih =>
    intro st hm
    cases hpop : popMin st.pq with
    | none => exact ⟨st, by rw [primLoop_succ, hpop]⟩
    | some p =>
      obtain ⟨u, rest⟩ := p
      have hlen : st.pq.length = rest.length + 1 := popMin_length hpop
      have hq1 : ({ st with pq := rest } : PrimState).pq.length = rest.length := rfl
      have hact1 : activeCnt g { st with pq := rest } = activeCnt g st := rfl
      by_cases hb : u.node ∈ st.booked
      · obtain ⟨st', hst'⟩ := ih { st with pq := rest } (by omega)
        refine ⟨st', ?_⟩
        simp only [primLoop_succ, hpop]
        rw [if_pos hb]
        exact hst'
      · by_cases hstale : gtD u.cost (mget st.dist u.node) = true
        · obtain ⟨st', hst'⟩ := ih { st with pq := rest } (by omega)
          refine ⟨st', ?_⟩
          simp only [primLoop_succ, hpop]
          rw [if_neg hb, if_pos hstale]
          exact hst'
        · have hact2 : activeCnt g (primAccept st u rest) ≤ activeCnt g st := by
            have heq : activeCnt g (primAccept st u rest) =
                ((entriesList g.adj).filter
                  (primActiveBD (u.node :: st.booked) st.dist)).length := by
              unfold activeCnt
              rw [primAccept_booked, primAccept_dist]
            rw [heq]
            exact filterLen_le_of_imp primActiveBD_booked_imp _
          have hrel := primRelax_measure g u.node (g.adjL u.node) (primAccept st u rest)
            (fun p hp => entriesList_of_adjL hp)
          have hq2 : (primAccept st u rest).pq.length = rest.length := by
            rw [primAccept_pq]
          obtain ⟨st', hst'⟩ := ih (primRelax u.node (g.adjL u.node) (primAccept st u rest))
            (by omega)
          refine ⟨st', ?_⟩
          simp only [primLoop_succ, hpop]
          rw [if_neg hb, if_neg hstale]
          exact hst'

theorem activeCnt_le_entryCount (g : Graph) (st : PrimState) :
    activeCnt g st ≤ g.entryCount := by
  have h1 : activeCnt g st ≤ (entriesList g.adj).length := List.length_filter_le _ _
  rw [entriesList_length] at h1
  exact h1

/-- `prim` terminates on every graph and source. -/
theorem prim_terminates (g : Graph) (s : Node) : ∃ st, g.prim s = some st := by
  have hm : (primInit s).pq.length + activeCnt g (primInit s) < g.fuel0 := by
    have h1 := activeCnt_le_entryCount g (primInit s)
    have h2 : (primInit s).pq.length = 1 := rfl
    rw [Graph.fuel0]
    omega
  exact primLoop_term g g.fuel0 (primInit s) hm

/-! ## Prim: the shape of the event trace (claim C9) -/

/-- The trace-shape invariant of `prim`: either the loop has not yet run
(the exact initial state), or the source is booked, every node event after
the first is paired with the tree edge from its recorded parent, the source
has no recorded parent, and every queued entry is the source or has a
recorded parent. -/
def PrimPhase (s : Node) (st : PrimState) : Prop :=
  (st.booked = [] ∧ st.nodes = [] ∧ st.edges = [] ∧ st.parent = [] ∧
    st.pq = [⟨0, s⟩] ∧ st.dist = [(s, 0)] ∧ st.total = 0) ∨
  (s ∈ st.booked ∧ st.nodes = s :: st.edges.map Prod.snd ∧ mget st.parent s = none ∧
    ∀ e ∈ st.pq, e.node = s ∨ (mget st.parent e.node).isSome)

theorem primRelax_phase2 (s u : Node) : ∀ (l : List (Node × Weight)) (st : PrimState),
    s ∈ st.booked → mget st.parent s = none →
    (∀ e ∈ st.pq, e.node = s ∨ (mget st.parent e.node).isSome) →
    mget (primRelax u l st).parent s = none ∧
      ∀ e ∈ (primRelax u l st).pq, e.node = s ∨ (mget (primRelax u l st).parent e.node).isSome := by
  intro l
  induction l with
  | nil => intro st _ hpar hpq; exact ⟨hpar, hpq⟩
  | cons vw rest ih =>
    intro st hs hpar hpq
    obtain ⟨v, w⟩ := vw
    rw [primRelax_cons]
    by_cases hv : v ∈ st.booked
    · rw [if_pos hv]
      exact ih st hs hpar hpq
    · rw [if_neg hv]
      by_cases hc : ltD w (mget st.dist v) = true
      · rw [if_pos hc]
        have hvs : s ≠ v := fun he => hv (he ▸ hs)
        refine ih (primPush st u v w) hs ?_ ?_
        · show mget (mput st.parent v u) s = none
          rw [mget_mput_ne st.parent hvs u]
          exact hpar
        · intro e he
          rcases List.mem_cons.mp he with rfl | he
          · refine Or.inr ?_
            show (mget (mput st.parent v u) v).isSome
            rw [mget_mput_self]
            rfl
          · rcases hpq e he with h | h
            · exact Or.inl h
            · exact Or.inr (mget_mput_isSome h)
      · rw [if_neg hc]
        exact ih st hs hpar hpq

theorem primLoop_phase (g : Graph) (s : Node) : ∀ (n : Nat) (st st' : PrimState),
    primLoop g n st = some st' → PrimPhase s st → PrimPhase s st' ∧ st'.pq = [] := by
  intro n
  induction n with
  | zero =>
    intro st st' h
    simp [primLoop] at h
  | succ n ih =>
    intro st st' h hphase
    rw [primLoop_succ] at h
    cases hpop : popMin st.pq with
    | none =>
      rw [hpop] at h
      obtain rfl := Option.some.inj h
      exact ⟨hphase, popMin_nil_iff.mp hpop⟩
    | some p =>
      obtain ⟨u, rest⟩ := p
      rw [hpop] at h
      simp only at h
      rcases hphase with ⟨hbooked, hnodes, hedges, hparent, hpq, hdist, htotal⟩ |
        ⟨hs, hnodes, hpars, hpq⟩
      · have hpop2 : popMin st.pq = some (⟨0, s⟩, []) := by
          rw [hpq]
          rfl
        rw [hpop] at hpop2
        obtain ⟨hu, hrest⟩ := Prod.mk.injEq .. ▸ Option.some.inj hpop2
        subst hu
        subst hrest
        have hb : (⟨0, s⟩ : HState).node ∉ st.booked := by
          rw [hbooked]
          exact List.not_mem_nil _
        rw [if_neg hb] at h
        have hstale : gtD (⟨0, s⟩ : HState).cost (mget st.dist (⟨0, s⟩ : HState).node) = false := by
          rw [hdist]
          show gtD 0 (mget [(s, 0)] s) = false
          simp [mget, gtD]
        rw [if_neg (by rw [hstale]; exact Bool.false_ne_true)] at h
        have hacc : primAccept st ⟨0, s⟩ [] =
            { st with
              pq := []
              booked := (⟨0, s⟩ : HState).node :: st.booked
              nodes := st.nodes ++ [(⟨0, s⟩ : HState).node] } := by
          simp only [primAccept]
          rw [hparent]
          rfl
        have hphase2 : PrimPhase s (primRelax (⟨0, s⟩ : HState).node
            (g.adjL (⟨0, s⟩ : HState).node) (primAccept st ⟨0, s⟩ [])) := by
          have hframe := primRelax_frame (⟨0, s⟩ : HState).node
            (g.adjL (⟨0, s⟩ : HState).node) (primAccept st ⟨0, s⟩ [])
          have hsb : s ∈ (primAccept st ⟨0, s⟩ []).booked := by
            rw [hacc]
            exact List.mem_cons_self _ _
          have hpar2 : mget (primAccept st ⟨0, s⟩ []).parent s = none := by
            rw [hacc]
            show mget st.parent s = none
            rw [hparent]
            rfl
          have hpq2 : ∀ e ∈ (primAccept st ⟨0, s⟩ []).pq,
              e.node = s ∨ (mget (primAccept st ⟨0, s⟩ []).parent e.node).isSome := by
            rw [hacc]
            intro e he
            exact absurd he (List.not_mem_nil _)
          obtain ⟨hpar3, hpq3⟩ := primRelax_phase2 s _ _ _ hsb hpar2 hpq2
          refine Or.inr ⟨?_, ?_, hpar3, hpq3⟩
          · rw [hframe.1, hacc]
            exact List.mem_cons_self _ _
          · rw [hframe.2.1, hframe.2.2.1, hacc]
            show st.nodes ++ [s] = s :: (st.edges.map Prod.snd)
            rw [hnodes, hedges]
            rfl
        exact ih _ _ h hphase2
      · have hrest_pq : ∀ e ∈ rest, e.node = s ∨ (mget st.parent e.node).isSome :=
          fun e he => hpq e (popMin_subset hpop e he)
        by_cases hb : u.node ∈ st.booked
        · rw [if_pos hb] at h
          exact ih _ _ h (Or.inr ⟨hs, hnodes, hpars, hrest_pq⟩)
        · rw [if_neg hb] at h
          by_cases hstale : gtD u.cost (mget st.dist u.node) = true
          · rw [if_pos hstale] at h
            exact ih _ _ h (Or.inr ⟨hs, hnodes, hpars, hrest_pq⟩)
          · rw [if_neg hstale] at h
            have hus : u.node ≠ s := fun he => hb (he ▸ hs)
            have hpar_u : (mget st.parent u.node).isSome :=
              (hpq u (popMin_mem hpop)).resolve_left hus
            obtain ⟨pr, hpr⟩ := Option.isSome_iff_exists.mp hpar_u
            have hacc : primAccept st u rest =
                { st with
                  pq := rest
                  booked := u.node :: st.booked
                  nodes := st.nodes ++ [u.node]
                  edges := st.edges ++ [(pr, u.node)]
                  total := st.total + u.cost } := by
              simp only [primAccept]
              rw [hpr]
            have hsb : s ∈ (primAccept st u rest).booked := by
              rw [hacc]
              exact List.mem_cons_of_mem _ hs
            have hpar2 : mget (primAccept st u rest).parent s = none := by
              rw [primAccept_parent]
              exact hpars
            have hpq2 : ∀ e ∈ (primAccept st u rest).pq,
                e.node = s ∨ (mget (primAccept st u rest).parent e.node).isSome := by
              rw [primAccept_pq, primAccept_parent]
              exact hrest_pq
            obtain ⟨hpar3, hpq3⟩ := primRelax_phase2 s _ _ _ hsb hpar2 hpq2
            have hframe := primRelax_frame u.node (g.adjL u.node) (primAccept st u rest)
            refine ih _ _ h (Or.inr ⟨?_, ?_, hpar3, hpq3⟩)
            · rw [hframe.1]
              exact hsb
            · rw [hframe.2.1, hframe.2.2.1, hacc]
              show st.nodes ++ [u.node] = s :: ((st.edges ++ [(pr, u.node)]).map Prod.snd)
              rw [hnodes, List.map_append]
              rfl

/-- Claim C9: for every graph and every source node, `prim`'s edge-event
sequence is exactly one shorter than its node-event sequence: the node
events are the source followed by the head of each tree-edge event in
order (each booked node except the source comes with exactly one tree edge
from its recorded parent). -/
theorem prim_trace_pairing (g : Graph) (s : Node) :
    ∃ st, g.prim s = some st ∧ st.nodes = s :: st.edges.map Prod.snd ∧
      st.nodes.length = st.edges.length + 1 := by
  obtain ⟨st, hrun⟩ := prim_terminates g s
  have hrun' : primLoop g g.fuel0 (primInit s) = some st := hrun
  have hphase0 : PrimPhase s (primInit s) := Or.inl ⟨rfl, rfl, rfl, rfl, rfl, rfl, rfl⟩
  obtain ⟨hphase, hpq⟩ := primLoop_phase g s g.fuel0 _ _ hrun' hphase0
  rcases hphase with ⟨_, _, _, _, hpq1, _, _⟩ | ⟨_, hnodes, _, _⟩
  · rw [hpq] at hpq1
    exact absurd hpq1.symm (List.cons_ne_nil _ _)
  · refine ⟨st, hrun, hnodes, ?_⟩
    rw [hnodes, List.length_cons, List.length_map]

/-! ## Dijkstra: step equations, frames and the termination measure -/

/-- The state produced by a firing Dijkstra relaxation step. -/
def dijkPush (st : DijkState) (u : HState) (v : Node) (w : Int) : DijkState :=
  { st with
    dist := mput st.dist v (u.cost + w)
    parent := mput st.parent v u.node
    pq := ⟨u.cost + w, v⟩ :: st.pq
    edges := st.edges ++ [(u.node, v)] }

theorem dijkRelax_cons (u : HState) (v : Node) (w : Int) (rest : List (Node × Weight))
    (st : DijkState) :
    dijkRelax u ((v, w) :: rest) st =
      dijkRelax u rest
        (if ltD (u.cost + w) (mget st.dist v) = true then dijkPush st u v w else st) := rfl

/-- The state after Dijkstra pops `u` and (if new) marks it processed. -/
def dijkMark (st : DijkState) (u : HState) (rest : List HState) : DijkState :=
  let st1 : DijkState := { st with pq := rest }
  if u.node ∈ st1.processed then st1
  else { st1 with nodes := st1.nodes ++ [u.node], processed := u.node :: st1.processed }

/-- One unfolding of the Dijkstra loop at positive fuel. -/
theorem dijkLoop_succ (g : Graph) (n : Nat) (st : DijkState) :
    dijkLoop g (n + 1) st =
      match popMin st.pq with
      | none => some st
      | some (u, rest) =>
        if gtD u.cost (mget st.dist u.node) = true then dijkLoop g n { st with pq := rest }
        else dijkLoop g n (dijkRelax u (g.adjL u.node) (dijkMark st u rest)) := by
  rfl

theorem dijkMark_dist (st : DijkState) (u : HState) (rest : List HState) :
    (dijkMark st u rest).dist = st.dist := by
  unfold dijkMark
  by_cases h : u.node ∈ st.processed
  · rw [if_pos h]
  · rw [if_neg h]

theorem dijkMark_pq (st : DijkState) (u : HState) (rest : List HState) :
    (dijkMark st u rest).pq = rest := by
  unfold dijkMark
  by_cases h : u.node ∈ st.processed
  · rw [if_pos h]
  · rw [if_neg h]

theorem dijkRelax_frame (u : HState) : ∀ (l : List (Node × Weight)) (st : DijkState),
    (dijkRelax u l st).processed = st.processed ∧ (dijkRelax u l st).nodes = st.nodes := by
  intro l
  induction l with
  | nil => intro st; exact ⟨rfl, rfl⟩
  | cons vw rest ih =>
    intro st
    obtain ⟨v, w⟩ := vw
    rw [dijkRelax_cons]
    by_cases hc : ltD (u.cost + w) (mget st.dist v) = true
    · rw [if_pos hc]
      exact ih _
    · rw [if_neg hc]
      exact ih st

theorem dijkRelax_pq_le (u : HState) : ∀ (l : List (Node × Weight)) (st : DijkState),
    (dijkRelax u l st).pq.length ≤ st.pq.length + l.length := by
  intro l
  induction l with
  | nil => intro st; exact le_of_eq rfl
  | cons vw rest ih =>
    intro st
    obtain ⟨v, w⟩ := vw
    rw [dijkRelax_cons]
    by_cases hc : ltD (u.cost + w) (mget st.dist v) = true
    · rw [if_pos hc]
      have h1 := ih (dijkPush st u v w)
      have h2 : (dijkPush st u v w).pq.length = st.pq.length + 1 := rfl
      rw [List.length_cons]
      omega
    · rw [if_neg hc]
      have h1 := ih st
      rw [List.length_cons]
      omega

/-- Total adjacency-entry count of the keys not yet processed. -/
def upSum (adj : List (Node × List (Node × Weight))) (proc : List Node) : Nat :=
  ((adj.filter (fun kv => decide (kv.1 ∉ proc))).map (fun kv => kv.2.length)).sum

/-- The Dijkstra termination measure for non-negative weights. -/
def dijkMeasure (g : Graph) (st : DijkState) : Nat :=
  st.pq.length + upSum g.adj st.processed

theorem upSum_le : ∀ (adj : List (Node × List (Node × Weight))) (proc : List Node),
    upSum adj proc ≤ (adj.map (fun kv => kv.2.length)).sum := by
  intro adj proc
  induction adj with
  | nil => exact le_refl 0
  | cons kv rest ih =>
    rw [upSum]
    by_cases h : kv.1 ∉ proc
    · rw [List.filter_cons_of_pos (by simpa using h)]
      simp only [List.map_cons, List.sum_cons]
      exact Nat.add_le_add_left ih _
    · rw [List.filter_cons_of_neg (by simpa using h)]
      simp only [List.map_cons, List.sum_cons]
      exact le_trans ih (Nat.le_add_left _ _)

theorem sumFilter_le_of_imp {α : Type} {p q : α → Bool} (f : α → Nat)
    (h : ∀ a, q a = true → p a = true) :
    ∀ (l : List α), ((l.filter q).map f).sum ≤ ((l.filter p).map f).sum := by
  intro l
  induction l with
  | nil => exact le_refl 0
  | cons a rest ih =>
    by_cases hq : q a = true
    · rw [List.filter_cons_of_pos hq, List.filter_cons_of_pos (h a hq)]
      simp only [List.map_cons, List.sum_cons]
      exact Nat.add_le_add_left ih _
    · rw [List.filter_cons_of_neg (by simpa using hq)]
      by_cases hp : p a = true
      · rw [List.filter_cons_of_pos hp]
        simp only [List.map_cons, List.sum_cons]
        exact le_trans ih (Nat.le_add_left _ _)
      · rw [List.filter_cons_of_neg (by simpa using hp)]
        exact ih

theorem upSum_cons_mem {kv : Node × List (Node × Weight)} {proc : List Node}
    (h : kv.1 ∈ proc) (rest : List (Node × List (Node × Weight))) :
    upSum (kv :: rest) proc = upSum rest proc := by
  rw [upSum, List.filter_cons_of_neg (by simp [h]), upSum]

theorem upSum_cons_not_mem {kv : Node × List (Node × Weight)} {proc : List Node}
    (h : kv.1 ∉ proc) (rest : List (Node × List (Node × Weight))) :
    upSum (kv :: rest) proc = kv.2.length + upSum rest proc := by
  rw [upSum, List.filter_cons_of_pos (by simpa using h)]
  simp [upSum]

theorem upSum_mono_cons {x : Node} {proc : List Node} :
    ∀ (adj : List (Node × List (Node × Weight))), upSum adj (x :: proc) ≤ upSum adj proc := by
  intro adj
  refine sumFilter_le_of_imp _ ?_ adj
  intro a ha
  simp only [decide_eq_true_eq] at ha ⊢
  exact fun hm => ha (List.mem_cons_of_mem _ hm)

theorem upSum_cons_le {x : Node} {proc : List Node} (hx : x ∉ proc) :
    ∀ (adj : List (Node × List (Node × Weight))),
    upSum adj (x :: proc) + ((adjFind adj x).getD []).length ≤ upSum adj proc := by
  intro adj
  induction adj with
  | nil => simp [upSum, adjFind]
  | cons kv rest ih =>
    obtain ⟨k, es⟩ := kv
    by_cases hk : k = x
    · subst hk
      rw [upSum_cons_mem (List.mem_cons_self _ _),
        upSum_cons_not_mem (show ((k, es) : Node × List (Node × Weight)).1 ∉ proc from hx),
        show adjFind ((k, es) :: rest) k = some es by simp [adjFind]]
      have h2 : upSum rest (k :: proc) ≤ upSum rest proc := upSum_mono_cons rest
      show upSum rest (k :: proc) + es.length ≤ es.length + upSum rest proc
      omega
    · rw [show adjFind ((k, es) :: rest) x = adjFind rest x by simp [adjFind, hk]]
      by_cases hkp : k ∈ proc
      · rw [upSum_cons_mem (show ((k, es) : Node × List (Node × Weight)).1 ∈ x :: proc from
            List.mem_cons_of_mem _ hkp),
          upSum_cons_mem (show ((k, es) : Node × List (Node × Weight)).1 ∈ proc from hkp)]
        exact ih
      · have hxk : ((k, es) : Node × List (Node × Weight)).1 ∉ x :: proc := by
          intro hmem
          rcases List.mem_cons.mp hmem with he | he
          · exact hk he
          · exact hkp he
        rw [upSum_cons_not_mem hxk,
          upSum_cons_not_mem (show ((k, es) : Node × List (Node × Weight)).1 ∉ proc from hkp)]
        have := ih
        omega

theorem upSum_adjL {g : Graph} {x : Node} {proc : List Node} (hx : x ∉ proc) :
    upSum g.adj (x :: proc) + (g.adjL x).length ≤ upSum g.adj proc :=
  upSum_cons_le hx g.adj

/-! ## Dijkstra: the state invariant for non-negative weights -/

/-- Two queue entries for the same node never carry the same cost. -/
def DistinctCost (a b : HState) : Prop := a.node = b.node → a.cost ≠ b.cost

theorem distinctCost_symm : Symmetric DistinctCost :=
  fun _ _ h he hc => h he.symm hc.symm

theorem pairwise_pop {st : List HState} {u : HState} {rest : List HState}
    (hpop : popMin st = some (u, rest)) (hpw : st.Pairwise DistinctCost) :
    (u :: rest).Pairwise DistinctCost :=
  ((popMin_perm hpop).pairwise_iff (fun h => distinctCost_symm h)).mp hpw

/-- The Dijkstra loop invariant (sound for non-negative weights).

* every distance entry and every queue entry is the cost of an actual walk;
* the source keeps distance `0`;
* every queue entry is at least the current best of its node;
* an unprocessed node with a distance entry keeps its latest entry queued;
* processed nodes are settled at their true shortest distance and fully
  relaxed;
* queue entries for processed nodes are strictly stale;
* queue entries for one node have pairwise distinct costs. -/
structure DijkInv (g : Graph) (s : Node) (st : DijkState) : Prop where
  dist_sound : ∀ v c, mget st.dist v = some c → Walk g s v c
  src_zero : mget st.dist s = some 0
  pq_sound : ∀ e ∈ st.pq, Walk g s e.node e.cost
  pq_ge : ∀ e ∈ st.pq, ∃ d, mget st.dist e.node = some d ∧ d ≤ e.cost
  frontier : ∀ v d, mget st.dist v = some d → v ∉ st.processed → (⟨d, v⟩ : HState) ∈ st.pq
  settled : ∀ x ∈ st.processed, ∃ d, mget st.dist x = some d ∧ ∀ c, Walk g s x c → d ≤ c
  relaxed : ∀ x ∈ st.processed, ∀ p ∈ g.adjL x, ∃ du dv, mget st.dist x = some du ∧
    mget st.dist p.1 = some dv ∧ dv ≤ du + p.2
  pq_proc : ∀ e ∈ st.pq, e.node ∈ st.processed →
    ∃ d, mget st.dist e.node = some d ∧ d < e.cost
  pq_distinct : st.pq.Pairwise DistinctCost

theorem dijkInv_init (g : Graph) (s : Node) : DijkInv g s (dijkInit s) := by
  have hdd : (dijkInit s).dist = [(s, 0)] := rfl
  have hqq : (dijkInit s).pq = [⟨0, s⟩] := rfl
  have hpp : (dijkInit s).processed = [] := rfl
  have hget : ∀ v : Node, mget [(s, 0)] v = if s = v then some 0 else none := by
    intro v
    rfl
  refine ⟨?_, ?_, ?_, ?_, ?_, ?_, ?_, ?_, ?_⟩
  · intro v c h
    rw [hdd, hget] at h
    by_cases hv : s = v
    · rw [if_pos hv] at h
      obtain rfl := Option.some.inj h
      exact hv ▸ Walk.nil
    · rw [if_neg hv] at h
      exact absurd h (by simp)
  · rw [hdd, hget, if_pos rfl]
  · intro e he
    rw [hqq] at he
    rcases List.mem_singleton.mp he with rfl
    exact Walk.nil
  · intro e he
    rw [hqq] at he
    rcases List.mem_singleton.mp he with rfl
    exact ⟨0, by rw [hdd, hget, if_pos rfl], le_refl 0⟩
  · intro v d h _
    rw [hdd, hget] at h
    rw [hqq]
    by_cases hv : s = v
    · rw [if_pos hv] at h
      obtain rfl := Option.some.inj h
      subst hv
      exact List.mem_singleton.mpr rfl
    · rw [if_neg hv] at h
      exact absurd h (by simp)
  · intro x hx
    rw [hpp] at hx
    exact absurd hx (List.not_mem_nil _)
  · intro x hx
    rw [hpp] at hx
    exact absurd hx (List.not_mem_nil _)
  · intro e _ he
    rw [hpp] at he
    exact absurd he (List.not_mem_nil _)
  · rw [hqq]
    exact List.pairwise_singleton _ _

/-- The crux: when `(u, rest)` is popped, `u.cost` bounds from below the
cost of every walk ending outside the settled region. -/
theorem dijk_pop_walk_bound {g : Graph} {s : Node} (hn : g.nonnegW) {st : DijkState}
    (hinv : DijkInv g s st) {u : HState} {rest : List HState}
    (hpop : popMin st.pq = some (u, rest)) :
    ∀ (z : Node) (c : Int), Walk g s z c →
      u.cost ≤ c ∨ (z ∈ st.processed ∧ ∃ dz, mget st.dist z = some dz ∧ dz ≤ c) := by
  intro z c hw
  induction hw with
  | nil =>
    by_cases hs : s ∈ st.processed
    · obtain ⟨d, hd, hmin⟩ := hinv.settled s hs
      exact Or.inr ⟨hs, d, hd, hmin 0 Walk.nil⟩
    · exact Or.inl (popMin_min hpop _ (hinv.frontier s 0 hinv.src_zero hs))
  | @snoc x z' w cx hw hmem ih =>
    have hw0 : (0 : Int) ≤ w := nonnegW_adjL hn _ _ hmem
    rcases ih with h | ⟨hxproc, dx, hdx, hdxc⟩
    · exact Or.inl (by omega)
    · obtain ⟨du, dv, hdu, hdv, hle⟩ := hinv.relaxed _ hxproc _ hmem
      have hdud : du = dx := Option.some.inj (hdu ▸ hdx)
      by_cases hz : z' ∈ st.processed
      · exact Or.inr ⟨hz, dv, hdv, by omega⟩
      · have hfr := hinv.frontier _ dv hdv hz
        have hle2 := popMin_min hpop _ hfr
        exact Or.inl (by simp only at hle2; omega)

/-- When the stale test fails, the popped entry carries the node's exact
current distance, the node is not yet processed, and that distance is
minimal among all walk costs. -/
theorem dijk_pop_accept {g : Graph} {s : Node} (hn : g.nonnegW) {st : DijkState}
    (hinv : DijkInv g s st) {u : HState} {rest : List HState}
    (hpop : popMin st.pq = some (u, rest))
    (hns : ¬gtD u.cost (mget st.dist u.node) = true) :
    mget st.dist u.node = some u.cost ∧ u.node ∉ st.processed ∧
      ∀ c, Walk g s u.node c → u.cost ≤ c := by
  obtain ⟨d, hd, hdle⟩ := hinv.pq_ge u (popMin_mem hpop)
  have hle : u.cost ≤ d := by
    rw [hd] at hns
    simp only [gtD, decide_eq_true_eq] at hns
    omega
  have hde : d = u.cost := le_antisymm hdle hle
  subst hde
  refine ⟨hd, ?_, ?_⟩
  · intro hproc
    obtain ⟨d', hd', hlt⟩ := hinv.pq_proc u (popMin_mem hpop) hproc
    rw [hd] at hd'
    obtain rfl := Option.some.inj hd'
    exact absurd hlt (lt_irrefl _)
  · intro c hw
    rcases dijk_pop_walk_bound hn hinv hpop u.node c hw with h | ⟨hproc, dz, hdz, hdzc⟩
    · exact h
    · rw [hd] at hdz
      obtain rfl := Option.some.inj hdz
      exact le_trans hdle hdzc

/-- The invariant carried through the relaxation loop over the pending
suffix `l` of `u.node`'s adjacency list: all `DijkInv` fields, with the
relaxation obligation waived for the entries of `u.node` still in `l`. -/
structure DRelax (g : Graph) (s : Node) (u : HState) (l : List (Node × Weight))
    (st : DijkState) : Prop where
  dist_sound : ∀ v c, mget st.dist v = some c → Walk g s v c
  src_zero : mget st.dist s = some 0
  pq_sound : ∀ e ∈ st.pq, Walk g s e.node e.cost
  pq_ge : ∀ e ∈ st.pq, ∃ d, mget st.dist e.node = some d ∧ d ≤ e.cost
  frontier : ∀ v d, mget st.dist v = some d → v ∉ st.processed → (⟨d, v⟩ : HState) ∈ st.pq
  settled : ∀ x ∈ st.processed, ∃ d, mget st.dist x = some d ∧ ∀ c, Walk g s x c → d ≤ c
  relaxedEx : ∀ x ∈ st.processed, ∀ p ∈ g.adjL x, (x = u.node ∧ p ∈ l) ∨
    ∃ du dv, mget st.dist x = some du ∧ mget st.dist p.1 = some dv ∧ dv ≤ du + p.2
  pq_proc : ∀ e ∈ st.pq, e.node ∈ st.processed →
    ∃ d, mget st.dist e.node = some d ∧ d < e.cost
  pq_distinct : st.pq.Pairwise DistinctCost
  u_dist : mget st.dist u.node = some u.cost
  u_proc : u.node ∈ st.processed

theorem dijkRelax_spec (g : Graph) (s : Node) (hn : g.nonnegW) (u : HState) :
    ∀ (l : List (Node × Weight)) (st : DijkState),
    (∀ p ∈ l, p ∈ g.adjL u.node) → DRelax g s u l st →
    DRelax g s u [] (dijkRelax u l st) := by
  intro l
  induction l with
  | nil => intro st _ h; exact h
  | cons vw rest ih =>
    intro st hl hD
    obtain ⟨v, w⟩ := vw
    have hvw : (v, w) ∈ g.adjL u.node := hl (v, w) (List.mem_cons_self _ _)
    have hl' : ∀ p ∈ rest, p ∈ g.adjL u.node := fun p hp => hl p (List.mem_cons_of_mem _ hp)
    rw [dijkRelax_cons]
    by_cases hc : ltD (u.cost + w) (mget st.dist v) = true
    · rw [if_pos hc]
      have wu : Walk g s u.node u.cost := hD.dist_sound _ _ hD.u_dist
      have wv : Walk g s v (u.cost + w) := Walk.snoc wu hvw
      have hczlt : ∀ d, mget st.dist v = some d → u.cost + w < d := by
        intro d hd
        rw [hd] at hc
        simpa only [ltD, decide_eq_true_eq] using hc
      have hvnp : v ∉ st.processed := by
        intro hvp
        obtain ⟨d, hd, hmin⟩ := hD.settled v hvp
        have h1 := hmin _ wv
        have h2 := hczlt d hd
        omega
      have hvs : s ≠ v := by
        intro he
        have h1 := hczlt 0 (he ▸ hD.src_zero)
        have h2 := walk_cost_nonneg hn wv
        omega
      have hunv : u.node ≠ v := fun he => hvnp (he ▸ hD.u_proc)
      have hd1 : (dijkPush st u v w).dist = mput st.dist v (u.cost + w) := rfl
      have hq1 : (dijkPush st u v w).pq = ⟨u.cost + w, v⟩ :: st.pq := rfl
      have hp1 : (dijkPush st u v w).processed = st.processed := rfl
      have hget1 : ∀ y, mget (mput st.dist v (u.cost + w)) y =
          if y = v then some (u.cost + w) else mget st.dist y := by
        intro y
        by_cases hy : y = v
        · subst hy
          rw [if_pos rfl, mget_mput_self]
        · rw [if_neg hy, mget_mput_ne st.dist hy]
      refine ih (dijkPush st u v w) hl' ?_
      refine ⟨?_, ?_, ?_, ?_, ?_, ?_, ?_, ?_, ?_, ?_, ?_⟩
      · intro y c h
        rw [hd1, hget1] at h
        by_cases hy : y = v
        · rw [if_pos hy] at h
          obtain rfl := Option.some.inj h
          exact hy ▸ wv
        · rw [if_neg hy] at h
          exact hD.dist_sound y c h
      · rw [hd1, hget1, if_neg hvs]
        exact hD.src_zero
      · intro e he
        rw [hq1] at he
        rcases List.mem_cons.mp he with rfl | he
        · exact wv
        · exact hD.pq_sound e he
      · intro e he
        rw [hq1] at he
        rcases List.mem_cons.mp he with rfl | he
        · exact ⟨u.cost + w, by rw [hd1, hget1, if_pos rfl], le_refl _⟩
        · obtain ⟨d, hd, hdle⟩ := hD.pq_ge e he
          by_cases hev : e.node = v
          · have hlt := hczlt d (hev ▸ hd)
            refine ⟨u.cost + w, by rw [hd1, hget1, if_pos hev], by omega⟩
          · exact ⟨d, by rw [hd1, hget1, if_neg hev]; exact hd, hdle⟩
      · intro y dy h hynp
        rw [hp1] at hynp
        rw [hd1, hget1] at h
        rw [hq1]
        by_cases hy : y = v
        · subst hy
          rw [if_pos rfl] at h
          obtain rfl := Option.some.inj h
          exact List.mem_cons_self _ _
        · rw [if_neg hy] at h
          exact List.mem_cons_of_mem _ (hD.frontier y dy h hynp)
      · intro x hx
        rw [hp1] at hx
        have hxv : x ≠ v := fun he => hvnp (he ▸ hx)
        obtain ⟨d, hd, hmin⟩ := hD.settled x hx
        exact ⟨d, by rw [hd1, hget1, if_neg hxv]; exact hd, hmin⟩
      · intro x hx p hp
        rw [hp1] at hx
        have hxv : x ≠ v := fun he => hvnp (he ▸ hx)
        rcases hD.relaxedEx x hx p hp with ⟨hxu, hpin⟩ | ⟨du, dv, hdu, hdv, hle⟩
        · rcases List.mem_cons.mp hpin with rfl | hpin
          · right
            refine ⟨u.cost, u.cost + w, ?_, ?_, le_refl _⟩
            · rw [hd1, hget1, if_neg hxv, hxu]
              exact hD.u_dist
            · show mget (dijkPush st u v w).dist v = some (u.cost + w)
              rw [hd1, hget1, if_pos rfl]
          · exact Or.inl ⟨hxu, hpin⟩
        · right
          by_cases hpv : p.1 = v
          · have hlt := hczlt dv (hpv ▸ hdv)
            refine ⟨du, u.cost + w, ?_, ?_, ?_⟩
            · rw [hd1, hget1, if_neg hxv]
              exact hdu
            · rw [hd1, hget1, if_pos hpv]
            · omega
          · refine ⟨du, dv, ?_, ?_, hle⟩
            · rw [hd1, hget1, if_neg hxv]
              exact hdu
            · rw [hd1, hget1, if_neg hpv]
              exact hdv
      · intro e he hep
        rw [hq1] at he
        rw [hp1] at hep
        rcases List.mem_cons.mp he with rfl | he
        · exact absurd hep hvnp
        · obtain ⟨d, hd, hlt⟩ := hD.pq_proc e he hep
          have hev : e.node ≠ v := fun heq => hvnp (heq ▸ hep)
          exact ⟨d, by rw [hd1, hget1, if_neg hev]; exact hd, hlt⟩
      · rw [hq1]
        refine List.pairwise_cons.mpr ⟨?_, hD.pq_distinct⟩
        intro b hb hnb
        obtain ⟨d, hd, hble⟩ := hD.pq_ge b hb
        have hnb' : b.node = v := hnb.symm
        have hlt := hczlt d (hnb' ▸ hd)
        intro heq
        simp only at heq
        omega
      · rw [hd1, hget1, if_neg hunv]
        exact hD.u_dist
      · rw [hp1]
        exact hD.u_proc
    · rw [if_neg hc]
      refine ih st hl' ?_
      refine ⟨hD.dist_sound, hD.src_zero, hD.pq_sound, hD.pq_ge, hD.frontier, hD.settled,
        ?_, hD.pq_proc, hD.pq_distinct, hD.u_dist, hD.u_proc⟩
      intro x hx p hp
      rcases hD.relaxedEx x hx p hp with ⟨hxu, hpin⟩ | hr
      · rcases List.mem_cons.mp hpin with rfl | hpin
        · right
          cases hdv : mget st.dist v with
          | none => exact absurd (by rw [hdv]; rfl) hc
          | some d =>
            have hdle : d ≤ u.cost + w := by
              rw [hdv] at hc
              simp only [ltD, decide_eq_true_eq, not_lt] at hc
              exact hc
            refine ⟨u.cost, d, ?_, rfl, hdle⟩
            rw [hxu]
            exact hD.u_dist
        · exact Or.inl ⟨hxu, hpin⟩
      · exact Or.inr hr

theorem dijkInv_of_DRelax_nil {g : Graph} {s : Node} {u : HState} {st : DijkState}
    (h : DRelax g s u [] st) : DijkInv g s st := by
  refine ⟨h.dist_sound, h.src_zero, h.pq_sound, h.pq_ge, h.frontier, h.settled, ?_,
    h.pq_proc, h.pq_distinct⟩
  intro x hx p hp
  rcases h.relaxedEx x hx p hp with ⟨_, hpin⟩ | hr
  · exact absurd hpin (List.not_mem_nil _)
  · exact hr

theorem dijkInv_stale {g : Graph} {s : Node} {st : DijkState} {u : HState}
    {rest : List HState} (hinv : DijkInv g s st) (hpop : popMin st.pq = some (u, rest))
    (hstale : gtD u.cost (mget st.dist u.node) = true) :
    DijkInv g s { st with pq := rest } := by
  have hq : ({ st with pq := rest } : DijkState).pq = rest := rfl
  refine ⟨hinv.dist_sound, hinv.src_zero, ?_, ?_, ?_, hinv.settled, hinv.relaxed, ?_, ?_⟩
  · intro e he
    exact hinv.pq_sound e (popMin_subset hpop e he)
  · intro e he
    exact hinv.pq_ge e (popMin_subset hpop e he)
  · intro v d hd hnp
    rw [hq]
    have hne : (⟨d, v⟩ : HState) ≠ u := by
      intro he
      rw [← he] at hstale
      rw [show (⟨d, v⟩ : HState).node = v from rfl, hd] at hstale
      simp only [gtD, decide_eq_true_eq] at hstale
      exact absurd hstale (lt_irrefl _)
    rcases popMin_mem_cases hpop _ (hinv.frontier v d hd hnp) with he | he
    · exact absurd he hne
    · exact he
  · intro e he
    exact hinv.pq_proc e (popMin_subset hpop e he)
  · rw [hq]
    exact (List.pairwise_cons.mp (pairwise_pop hpop hinv.pq_distinct)).2

theorem dijkLoop_spec (g : Graph) (s : Node) (hn : g.nonnegW) : ∀ (n : Nat) (st : DijkState),
    DijkInv g s st → dijkMeasure g st < n →
    ∃ st', dijkLoop g n st = some st' ∧ DijkInv g s st' ∧ st'.pq = [] := by
  intro n
  induction n with
  | zero => intro st _ hm; exact absurd hm (Nat.not_lt_zero _)
  | succ n ih =>
    intro st hinv hm
    cases hpop : popMin st.pq with
    | none =>
      exact ⟨st, by rw [dijkLoop_succ, hpop], hinv, popMin_nil_iff.mp hpop⟩
    | some p =>
      obtain ⟨u, rest⟩ := p
      have hlen : st.pq.length = rest.length + 1 := popMin_length hpop
      by_cases hstale : gtD u.cost (mget st.dist u.node) = true
      · have hinv1 := dijkInv_stale hinv hpop hstale
        have hm1 : dijkMeasure g { st with pq := rest } < n := by
          have h1 : dijkMeasure g { st with pq := rest } =
              rest.length + upSum g.adj st.processed := rfl
          have h2 : dijkMeasure g st = st.pq.length + upSum g.adj st.processed := rfl
          omega
        obtain ⟨st', h1, h2, h3⟩ := ih _ hinv1 hm1
        refine ⟨st', ?_, h2, h3⟩
        simp only [dijkLoop_succ, hpop]
        rw [if_pos hstale]
        exact h1
      · obtain ⟨hud, hup, hmin⟩ := dijk_pop_accept hn hinv hpop hstale
        have hmark : dijkMark st u rest =
            { st with
              pq := rest
              nodes := st.nodes ++ [u.node]
              processed := u.node :: st.processed } := by
          unfold dijkMark
          rw [if_neg hup]
        have hpw := pairwise_pop hpop hinv.pq_distinct
        have hDrel : DRelax g s u (g.adjL u.node) (dijkMark st u rest) := by
          rw [hmark]
          have hd2 : ({ st with
              pq := rest
              nodes := st.nodes ++ [u.node]
              processed := u.node :: st.processed } : DijkState).dist = st.dist := rfl
          refine ⟨?_, ?_, ?_, ?_, ?_, ?_, ?_, ?_, ?_, ?_, ?_⟩
          · intro v c h
            exact hinv.dist_sound v c h
          · exact hinv.src_zero
          · intro e he
            exact hinv.pq_sound e (popMin_subset hpop e he)
          · intro e he
            exact hinv.pq_ge e (popMin_subset hpop e he)
          · intro v d hd hnp
            show (⟨d, v⟩ : HState) ∈ rest
            rw [List.mem_cons, not_or] at hnp
            have hmem := hinv.frontier v d hd hnp.2
            rcases popMin_mem_cases hpop _ hmem with he | he
            · exact absurd (congrArg HState.node he) hnp.1
            · exact he
          · intro x hx
            rcases List.mem_cons.mp hx with rfl | hx
            · exact ⟨u.cost, hud, hmin⟩
            · exact hinv.settled x hx
          · intro x hx p hp
            rcases List.mem_cons.mp hx with rfl | hx
            · exact Or.inl ⟨rfl, hp⟩
            · exact Or.inr (hinv.relaxed x hx p hp)
          · intro e he hep
            rcases List.mem_cons.mp hep with heq | hep
            · obtain ⟨d, hd, hdle⟩ := hinv.pq_ge e (popMin_subset hpop e he)
              rw [heq] at hd
              rw [hud] at hd
              obtain rfl := Option.some.inj hd
              have hdc := (List.pairwise_cons.mp hpw).1 e he (heq.symm)
              refine ⟨u.cost, by rw [heq]; exact hud, lt_of_le_of_ne hdle hdc⟩
            · exact hinv.pq_proc e (popMin_subset hpop e he) hep
          · exact (List.pairwise_cons.mp hpw).2
          · exact hud
          · exact List.mem_cons_self _ _
        have hrel := dijkRelax_spec g s hn u (g.adjL u.node) (dijkMark st u rest)
          (fun p hp => hp) hDrel
        have hinv3 := dijkInv_of_DRelax_nil hrel
        have hm3 : dijkMeasure g (dijkRelax u (g.adjL u.node) (dijkMark st u rest)) < n := by
          have hf := dijkRelax_frame u (g.adjL u.node) (dijkMark st u rest)
          have hle1 := dijkRelax_pq_le u (g.adjL u.node) (dijkMark st u rest)
          have hms : (dijkMark st u rest).pq.length = rest.length := by
            rw [hmark]
          have hmp : (dijkMark st u rest).processed = u.node :: st.processed := by
            rw [hmark]
          have hsum := upSum_adjL (g := g) hup
          have hmeq : dijkMeasure g (dijkRelax u (g.adjL u.node) (dijkMark st u rest)) =
              (dijkRelax u (g.adjL u.node) (dijkMark st u rest)).pq.length +
                upSum g.adj (dijkRelax u (g.adjL u.node) (dijkMark st u rest)).processed := rfl
          have hmeq2 : dijkMeasure g st = st.pq.length + upSum g.adj st.processed := rfl
          rw [hmeq, hf.1, hmp]
          rw [hms] at hle1
          omega
        obtain ⟨st', h1, h2, h3⟩ := ih _ hinv3 hm3
        refine ⟨st', ?_, h2, h3⟩
        simp only [dijkLoop_succ, hpop]
        rw [if_neg hstale]
        exact h1

/-- The run of `dijkstra` on a graph with non-negative weights: it
terminates, with the full invariant and an empty queue. -/
theorem dijkstra_run_inv (g : Graph) (s : Node) (hn : g.nonnegW) :
    ∃ st, g.dijkstra s = some st ∧ DijkInv g s st ∧ st.pq = [] := by
  have hm : dijkMeasure g (dijkInit s) < g.fuel0 := by
    have h1 : dijkMeasure g (dijkInit s) = 1 + upSum g.adj [] := rfl
    have h2 := upSum_le g.adj []
    have h3 : (g.adj.map (fun kv => kv.2.length)).sum = g.entryCount := rfl
    rw [Graph.fuel0]
    omega
  exact dijkLoop_spec g s hn g.fuel0 (dijkInit s) (dijkInv_init g s) hm

/-- Claim C1: for every graph with non-negative edge weights and every
source, `dijkstra` returns, and its distance map contains an entry for a
node exactly when that entry is the cost of a walk from the source and no
walk from the source to that node is cheaper (so reached nodes carry the
minimum path cost, the source carries `0`, and unreachable nodes carry no
entry). -/
theorem dijkstra_dist_eq_min_walk (g : Graph) (s : Node) (hn : g.nonnegW) :
    ∃ st, g.dijkstra s = some st ∧
      ∀ v c, mget st.dist v = some c ↔
        (Walk g s v c ∧ ∀ c', Walk g s v c' → c ≤ c') := by
  obtain ⟨st, hrun, hinv, hpq⟩ := dijkstra_run_inv g s hn
  have hproc_of_dist : ∀ v d, mget st.dist v = some d → v ∈ st.processed := by
    intro v d hd
    by_contra hnp
    have hmem := hinv.frontier v d hd hnp
    rw [hpq] at hmem
    exact absurd hmem (List.not_mem_nil _)
  have hcompl : ∀ (v : Node) (c : Int), Walk g s v c → ∃ d, mget st.dist v = some d := by
    intro v c hw
    induction hw with
    | nil => exact ⟨0, hinv.src_zero⟩
    | snoc hw2 hmem2 ih2 =>
      obtain ⟨dx, hdx⟩ := ih2
      obtain ⟨du, dv, _, hdv, _⟩ := hinv.relaxed _ (hproc_of_dist _ _ hdx) _ hmem2
      exact ⟨dv, hdv⟩
  refine ⟨st, hrun, ?_⟩
  intro v c
  constructor
  · intro hd
    obtain ⟨d, hd2, hmin⟩ := hinv.settled v (hproc_of_dist v c hd)
    rw [hd] at hd2
    obtain rfl := Option.some.inj hd2
    exact ⟨hinv.dist_sound v _ hd, hmin⟩
  · rintro ⟨hw, hmin⟩
    obtain ⟨d, hd⟩ := hcompl v c hw
    have h1 := hmin d (hinv.dist_sound v d hd)
    obtain ⟨d2, hd2, hmin2⟩ := hinv.settled v (hproc_of_dist v d hd)
    rw [hd] at hd2
    obtain rfl := Option.some.inj hd2
    have h2 := hmin2 c hw
    rw [hd, le_antisymm h1 h2]

/-- The star graph of test scenario 2. -/
def gStar : Graph :=
  ((Graph.new.add_edge 1 2 2 .Both).add_edge 1 3 3 .Both).add_edge 1 6 6 .Both

/-- Witness for claim C1 at the scenario-2 star graph. -/
theorem dijkstra_dist_eq_min_walk_witness :
    gStar.nonnegW ∧
      ∃ st, gStar.dijkstra 1 = some st ∧
        ∀ v c, mget st.dist v = some c ↔
          (Walk gStar 1 v c ∧ ∀ c', Walk gStar 1 v c' → c ≤ c') :=
  ⟨by unfold Graph.nonnegW; decide,
    dijkstra_dist_eq_min_walk gStar 1 (by unfold Graph.nonnegW; decide)⟩

/-! ## Claim C7: termination -/

/-- The graph with a single negative self-loop: `add_edge(1, 1, -1, Single)`. -/
def gNeg : Graph := Graph.new.add_edge 1 1 (-1) .Single

/-- The recurring state of `dijkstra` on `gNeg`: the node `1` is processed
with current distance `k`, and the queue holds the single entry `(k, 1)`
that keeps improving forever. -/
def negS (k : Int) (ed : List (Node × Node)) : DijkState :=
  ⟨[(1, k)], [(1, 1)], [1], ed, [1], [⟨k, 1⟩]⟩

theorem negLoop_none : ∀ (n : Nat) (k : Int) (ed : List (Node × Node)),
    dijkLoop gNeg n (negS k ed) = none := by
  intro n
  induction n with
  | zero => intro k ed; rfl
  | succ n ih =>
    intro k ed
    have hpop : popMin (negS k ed).pq = some (⟨k, 1⟩, []) := rfl
    simp only [dijkLoop_succ, hpop]
    have hstale : ¬gtD (⟨k, 1⟩ : HState).cost
        (mget (negS k ed).dist (⟨k, 1⟩ : HState).node) = true := by
      show ¬gtD k (mget (negS k ed).dist 1) = true
      rw [show mget (negS k ed).dist 1 = some k from rfl]
      simp [gtD]
    rw [if_neg hstale]
    have hmark : dijkMark (negS k ed) ⟨k, 1⟩ [] = { negS k ed with pq := [] } := by
      unfold dijkMark
      rw [if_pos (show (⟨k, 1⟩ : HState).node ∈
        ({ negS k ed with pq := ([] : List HState) } : DijkState).processed from
        List.mem_singleton.mpr rfl)]
    rw [hmark]
    have hadj : gNeg.adjL (⟨k, 1⟩ : HState).node = [(1, -1)] := rfl
    rw [hadj, dijkRelax_cons]
    have hlt : ltD ((⟨k, 1⟩ : HState).cost + -1)
        (mget ({ negS k ed with pq := ([] : List HState) } : DijkState).dist 1) = true := by
      show ltD (k + -1) (some k) = true
      simp only [ltD, decide_eq_true_eq]
      omega
    rw [if_pos hlt]
    have hpush : dijkPush { negS k ed with pq := ([] : List HState) } ⟨k, 1⟩ 1 (-1) =
        negS (k + -1) (ed ++ [(1, 1)]) := by
      unfold dijkPush negS
      simp [mput]
    rw [hpush]
    exact ih (k + -1) (ed ++ [(1, 1)])

theorem negInit_step (n : Nat) :
    dijkLoop gNeg (n + 1) (dijkInit 1) = dijkLoop gNeg n (negS (-1) [(1, 1)]) := rfl

/-- `dijkstra` terminates when some fuel suffices for its loop. -/
def DijkTerminates (g : Graph) (s : Node) : Prop := ∃ n, (g.dijkstraF s n).isSome

/-- Claim C7 counterexample: on the graph with the single negative self-loop
`add_edge(1, 1, -1, Single)`, the `dijkstra` loop keeps improving the
distance of node `1` forever, so no amount of fuel completes it: `dijkstra`
does not terminate (the idealised-integer rendering of the Rust loop, which
would run until `i64` overflow instead of returning a correct value). -/
theorem dijkstra_neg_self_loop_diverges : ¬DijkTerminates gNeg 1 := by
  rintro ⟨n, hn⟩
  cases n with
  | zero => exact absurd hn (by rw [show gNeg.dijkstraF 1 0 = none from rfl]; simp)
  | succ n =>
    rw [Graph.dijkstraF, negInit_step, negLoop_none] at hn
    exact absurd hn (by simp)

/-- Claim C7 (amended): for every finite graph — including self-loops and
parallel edges — and every source, `add_edge` (a total function), `dfs`,
`bfs` and `prim` terminate and return a value; `dijkstra` terminates for
every graph whose weights are all non-negative, but can run forever when a
negative-weight cycle (for instance a negative self-loop) is reachable. -/
theorem algorithms_terminate (g : Graph) (s : Node) :
    (∃ t, g.dfs s = some t) ∧ (∃ st, g.bfs s = some st) ∧
      (∃ st, g.prim s = some st) ∧
      (g.nonnegW → ∃ st, g.dijkstra s = some st) := by
  refine ⟨?_, ?_, prim_terminates g s, ?_⟩
  · obtain ⟨t, h, _⟩ := dfs_run_spec g s
    exact ⟨t, h⟩
  · obtain ⟨st, h, _⟩ := bfs_run_spec g s
    exact ⟨st, h⟩
  · intro hn
    obtain ⟨st, h, _⟩ := dijkstra_run_inv g s hn
    exact ⟨st, h⟩

/-- Witness for the amended claim C7 at the scenario-1 graph. -/
theorem algorithms_terminate_witness :
    g4.nonnegW ∧ (∃ t, g4.dfs 1 = some t) ∧ (∃ st, g4.bfs 1 = some st) ∧
      (∃ st, g4.prim 1 = some st) ∧ (∃ st, g4.dijkstra 1 = some st) :=
  ⟨by unfold Graph.nonnegW; decide,
    (algorithms_terminate g4 1).1,
    (algorithms_terminate g4 1).2.1,
    (algorithms_terminate g4 1).2.2.1,
    (algorithms_terminate g4 1).2.2.2 (by unfold Graph.nonnegW; decide)⟩

/-! ## Undirected reachability over a set of weighted edges

For the minimum-spanning-tree claim, spanning trees are sub-multisets of the
inserted `(tail, head, weight)` list, traversable in either direction. -/

/-- A `(tail, head, weight)` triple. -/
abbrev UE := Node × Node × Weight

/-- `a` and `b` are joined by an available edge, in either orientation. -/
def uedge (P : UE → Prop) (a b : Node) : Prop :=
  ∃ w, P (a, b, w) ∨ P (b, a, w)

/-- Reachability along available edges, ignoring orientation. -/
inductive UReach (P : UE → Prop) : Node → Node → Prop where
  | refl (a : Node) : UReach P a a
  | tail {a b c : Node} : UReach P a b → uedge P b c → UReach P a c

theorem uedge_symm {P : UE → Prop} {a b : Node} (h : uedge P a b) : uedge P b a := by
  obtain ⟨w, h | h⟩ := h
  · exact ⟨w, Or.inr h⟩
  · exact ⟨w, Or.inl h⟩

theorem uedge_mono {P Q : UE → Prop} (hPQ : ∀ e, P e → Q e) {a b : Node}
    (h : uedge P a b) : uedge Q a b := by
  obtain ⟨w, h | h⟩ := h
  · exact ⟨w, Or.inl (hPQ _ h)⟩
  · exact ⟨w, Or.inr (hPQ _ h)⟩

theorem UReach.mono {P Q : UE → Prop} (hPQ : ∀ e, P e → Q e) {a b : Node}
    (h : UReach P a b) : UReach Q a b := by
  induction h with
  | refl => exact UReach.refl a
  | tail _ hedge ih => exact ih.tail (uedge_mono hPQ hedge)

theorem UReach.single {P : UE → Prop} {a b : Node} (h : uedge P a b) : UReach P a b :=
  (UReach.refl a).tail h

theorem UReach.trans {P : UE → Prop} {a b c : Node} (h1 : UReach P a b)
    (h2 : UReach P b c) : UReach P a c := by
  induction h2 with
  | refl => exact h1
  | tail _ hedge ih => exact ih.tail hedge

theorem UReach.symm {P : UE → Prop} {a b : Node} (h : UReach P a b) : UReach P b a := by
  induction h with
  | refl => exact UReach.refl a
  | tail _ hedge ih => exact (UReach.single (uedge_symm hedge)).trans ih

/-- Removing one edge `f` from the pool splits reachability into three cases:
the walk avoids `f`, or it decomposes at `f` in one of the two orientations. -/
theorem ureach_erase_decomp {T : Multiset UE} (f : UE) {a b : Node}
    (h : UReach (fun e => e ∈ T) a b) :
    UReach (fun e => e ∈ T.erase f) a b ∨
      (UReach (fun e => e ∈ T.erase f) a f.1 ∧ UReach (fun e => e ∈ T.erase f) f.2.1 b) ∨
      (UReach (fun e => e ∈ T.erase f) a f.2.1 ∧ UReach (fun e => e ∈ T.erase f) f.1 b) := by
  induction h with
  | refl => exact Or.inl (UReach.refl a)
  | @tail y z hay hedge ih =>
    obtain ⟨w, hw | hw⟩ := hedge
    · by_cases ht : (y, z, w) = f
      · subst ht
        rcases ih with hd | ⟨h1, h2⟩ | ⟨h1, h2⟩
        · exact Or.inr (Or.inl ⟨hd, UReach.refl _⟩)
        · exact Or.inr (Or.inl ⟨h1, UReach.refl _⟩)
        · exact Or.inl h1
      · have hmem : (y, z, w) ∈ T.erase f := (Multiset.mem_erase_of_ne ht).mpr hw
        have hedge2 : uedge (fun e => e ∈ T.erase f) y z := ⟨w, Or.inl hmem⟩
        rcases ih with hd | ⟨h1, h2⟩ | ⟨h1, h2⟩
        · exact Or.inl (hd.tail hedge2)
        · exact Or.inr (Or.inl ⟨h1, h2.tail hedge2⟩)
        · exact Or.inr (Or.inr ⟨h1, h2.tail hedge2⟩)
    · by_cases ht : (z, y, w) = f
      · subst ht
        rcases ih with hd | ⟨h1, h2⟩ | ⟨h1, h2⟩
        · exact Or.inr (Or.inr ⟨hd, UReach.refl _⟩)
        · exact Or.inl h1
        · exact Or.inr (Or.inr ⟨h1, UReach.refl _⟩)
      · have hmem : (z, y, w) ∈ T.erase f := (Multiset.mem_erase_of_ne ht).mpr hw
        have hedge2 : uedge (fun e => e ∈ T.erase f) y z := ⟨w, Or.inr hmem⟩
        rcases ih with hd | ⟨h1, h2⟩ | ⟨h1, h2⟩
        · exact Or.inl (hd.tail hedge2)
        · exact Or.inr (Or.inl ⟨h1, h2.tail hedge2⟩)
        · exact Or.inr (Or.inr ⟨h1, h2.tail hedge2⟩)

/-- A walk from inside `S` to outside `S` uses a crossing edge. -/
theorem ureach_crossing {T : Multiset UE} {S : List Node} {x y : Node}
    (h : UReach (fun e => e ∈ T) x y) : x ∈ S → y ∉ S →
    ∃ f ∈ T, ∃ a b : Node, ((f.1 = a ∧ f.2.1 = b) ∨ (f.1 = b ∧ f.2.1 = a)) ∧
      a ∈ S ∧ b ∉ S := by
  induction h with
  | refl => exact fun hx hy => absurd hx hy
  | @tail y' z hxy hedge ih =>
    intro hx hy
    by_cases hb : y' ∈ S
    · obtain ⟨w, hw | hw⟩ := hedge
      · exact ⟨(y', z, w), hw, y', z, Or.inl ⟨rfl, rfl⟩, hb, hy⟩
      · exact ⟨(z, y', w), hw, y', z, Or.inr ⟨rfl, rfl⟩, hb, hy⟩
    · exact ih hx hb

theorem erase_erase_mono {T : Multiset UE} {f f' : UE} :
    ∀ e, e ∈ (T.erase f).erase f' → e ∈ T.erase f' := by
  intro e he
  rw [Multiset.erase_comm] at he
  exact Multiset.mem_of_le (Multiset.erase_le _ _) he

/-- A walk from inside `S` to `y` outside `S` yields a crossing edge `f`
whose outside endpoint still reaches `y` after `f` is removed. -/
theorem ureach_sided_crossing : ∀ (n : Nat) (T : Multiset UE), Multiset.card T ≤ n →
    ∀ {S : List Node} {y : Node}, (∃ x ∈ S, UReach (fun e => e ∈ T) x y) → y ∉ S →
    ∃ f ∈ T, ∃ a b : Node, ((f.1 = a ∧ f.2.1 = b) ∨ (f.1 = b ∧ f.2.1 = a)) ∧
      a ∈ S ∧ b ∉ S ∧ UReach (fun e => e ∈ T.erase f) b y := by
  intro n
  induction n with
  | zero =>
    intro T hcard S y ⟨x, hx, hreach⟩ hy
    obtain ⟨f, hfT, _⟩ := ureach_crossing hreach hx hy
    rw [Nat.le_zero, Multiset.card_eq_zero] at hcard
    subst hcard
    exact absurd hfT (Multiset.not_mem_zero _)
  | succ n ih =>
    intro T hcard S y ⟨x, hx, hreach⟩ hy
    obtain ⟨f0, hf0, a0, b0, hsides0, ha0, hb0⟩ := ureach_crossing hreach hx hy
    have hcard' : Multiset.card (T.erase f0) ≤ n := by
      rw [Multiset.card_erase_of_mem hf0, Nat.pred_eq_sub_one]
      omega
    have hup : ∀ {f' : UE}, f' ∈ T.erase f0 →
        (∃ a b : Node, ((f'.1 = a ∧ f'.2.1 = b) ∨ (f'.1 = b ∧ f'.2.1 = a)) ∧
          a ∈ S ∧ b ∉ S ∧ UReach (fun e => e ∈ (T.erase f0).erase f') b y) →
        ∃ f ∈ T, ∃ a b : Node, ((f.1 = a ∧ f.2.1 = b) ∨ (f.1 = b ∧ f.2.1 = a)) ∧
          a ∈ S ∧ b ∉ S ∧ UReach (fun e => e ∈ T.erase f) b y := by
      intro f' hf' ⟨a, b, hs, ha, hb, hr⟩
      exact ⟨f', Multiset.mem_of_le (Multiset.erase_le _ _) hf', a, b, hs, ha, hb,
        hr.mono erase_erase_mono⟩
    rcases ureach_erase_decomp f0 hreach with hd | ⟨h1, h2⟩ | ⟨h1, h2⟩
    · obtain ⟨f', hf', rest⟩ := ih (T.erase f0) hcard' ⟨x, hx, hd⟩ hy
      exact hup hf' rest
    · by_cases h21 : f0.2.1 ∈ S
      · obtain ⟨f', hf', rest⟩ := ih (T.erase f0) hcard' ⟨f0.2.1, h21, h2⟩ hy
        exact hup hf' rest
      · rcases hsides0 with ⟨he1, he2⟩ | ⟨he1, he2⟩
        · exact ⟨f0, hf0, f0.1, f0.2.1, Or.inl ⟨rfl, rfl⟩,
            (by rw [he1]; exact ha0), h21, h2⟩
        · exact absurd (show f0.2.1 ∈ S by rw [he2]; exact ha0) h21
    · by_cases h11 : f0.1 ∈ S
      · obtain ⟨f', hf', rest⟩ := ih (T.erase f0) hcard' ⟨f0.1, h11, h2⟩ hy
        exact hup hf' rest
      · rcases hsides0 with ⟨he1, he2⟩ | ⟨he1, he2⟩
        · exact absurd (show f0.1 ∈ S by rw [he1]; exact ha0) h11
        · exact ⟨f0, hf0, f0.2.1, f0.1, Or.inr ⟨rfl, rfl⟩,
            (by rw [he2]; exact ha0), h11, h2⟩

/-! ## Graphs built from a list of `Both` insertions -/

/-- The graph obtained by inserting every `(u, v, w)` of `es` with
`add_edge(u, v, w, Both)` into a fresh graph. -/
def buildU (es : List UE) : Graph :=
  es.foldl (fun g e => g.add_edge e.1 e.2.1 e.2.2 .Both) Graph.new

theorem mem_adjL_add_edge_both (g : Graph) (u0 v0 : Node) (w0 : Weight)
    (x v : Node) (w : Weight) :
    (v, w) ∈ (g.add_edge u0 v0 w0 .Both).adjL x ↔
      (v, w) ∈ g.adjL x ∨ (x = u0 ∧ v = v0 ∧ w = w0) ∨ (x = v0 ∧ v = u0 ∧ w = w0) := by
  rw [adjL_add_edge_both]
  by_cases hv : x = v0
  · subst hv
    by_cases hu : x = u0
    · subst hu
      rw [if_pos rfl, if_pos rfl]
      simp only [List.mem_append, List.mem_singleton, Prod.mk.injEq]
      tauto
    · rw [if_pos rfl, if_neg hu]
      simp only [List.mem_append, List.mem_singleton, Prod.mk.injEq]
      tauto
  · rw [if_neg hv]
    by_cases hu : x = u0
    · subst hu
      rw [if_pos rfl]
      simp only [List.mem_append, List.mem_singleton, Prod.mk.injEq]
      tauto
    · rw [if_neg hu]
      tauto

theorem foldU_adjL_mem : ∀ (es : List UE) (g : Graph) (x v : Node) (w : Weight),
    (v, w) ∈ (es.foldl (fun g e => g.add_edge e.1 e.2.1 e.2.2 .Both) g).adjL x ↔
      (v, w) ∈ g.adjL x ∨ (x, v, w) ∈ es ∨ (v, x, w) ∈ es := by
  intro es
  induction es with
  | nil => intro g x v w; simp
  | cons e rest ih =>
    intro g x v w
    rw [List.foldl_cons, ih, mem_adjL_add_edge_both]
    simp only [List.mem_cons, Prod.mk.injEq]
    constructor
    · rintro ((hh | ⟨rfl, rfl, rfl⟩ | ⟨rfl, rfl, rfl⟩) | hr | hr)
      · exact Or.inl hh
      · exact Or.inr (Or.inl (Or.inl rfl))
      · exact Or.inr (Or.inr (Or.inl rfl))
      · exact Or.inr (Or.inl (Or.inr hr))
      · exact Or.inr (Or.inr (Or.inr hr))
    · rintro (hh | (he | hr) | (he | hr))
      · exact Or.inl (Or.inl hh)
      · obtain rfl : e = (x, v, w) := he.symm
        exact Or.inl (Or.inr (Or.inl ⟨rfl, rfl, rfl⟩))
      · exact Or.inr (Or.inl hr)
      · obtain rfl : e = (v, x, w) := he.symm
        exact Or.inl (Or.inr (Or.inr ⟨rfl, rfl, rfl⟩))
      · exact Or.inr (Or.inr hr)

/-- Adjacency of a `Both`-built graph: exactly the inserted triples, read in
either direction. -/
theorem buildU_adjL_mem (es : List UE) (x v : Node) (w : Weight) :
    (v, w) ∈ (buildU es).adjL x ↔ (x, v, w) ∈ es ∨ (v, x, w) ∈ es := by
  rw [buildU, foldU_adjL_mem]
  have hnew : (Graph.new).adjL x = [] := rfl
  rw [hnew]
  simp

/-! ## `Graph::nodes`: no duplicates, and membership -/

theorem sput_mem {s : List Node} {x y : Node} : y ∈ sput s x ↔ y ∈ s ∨ y = x := by
  unfold sput
  by_cases h : x ∈ s
  · rw [if_pos h]
    constructor
    · exact Or.inl
    · rintro (hy | rfl)
      · exact hy
      · exact h
  · rw [if_neg h]
    simp [List.mem_append]

theorem sput_nodup {s : List Node} (h : s.Nodup) (x : Node) : (sput s x).Nodup := by
  unfold sput
  by_cases hx : x ∈ s
  · rw [if_pos hx]; exact h
  · rw [if_neg hx]
    exact List.Nodup.append h (List.nodup_singleton x)
      (fun a ha hax => hx ((List.mem_singleton.mp hax) ▸ ha))

theorem innerFold_nodup : ∀ (l : List (Node × Weight)) (acc : List Node), acc.Nodup →
    (l.foldl (fun a p => sput a p.1) acc).Nodup := by
  intro l
  induction l with
  | nil => intro acc h; exact h
  | cons p rest ih => intro acc h; exact ih _ (sput_nodup h p.1)

theorem innerFold_mem : ∀ (l : List (Node × Weight)) (acc : List Node) (y : Node),
    y ∈ l.foldl (fun a p => sput a p.1) acc ↔ y ∈ acc ∨ ∃ p ∈ l, p.1 = y := by
  intro l
  induction l with
  | nil => intro acc y; simp
  | cons p rest ih =>
    intro acc y
    rw [List.foldl_cons, ih, sput_mem]
    simp only [List.mem_cons]
    constructor
    · rintro ((hy | rfl) | ⟨q, hq, rfl⟩)
      · exact Or.inl hy
      · exact Or.inr ⟨p, Or.inl rfl, rfl⟩
      · exact Or.inr ⟨q, Or.inr hq, rfl⟩
    · rintro (hy | ⟨q, (rfl | hq), rfl⟩)
      · exact Or.inl (Or.inl hy)
      · exact Or.inl (Or.inr rfl)
      · exact Or.inr ⟨q, hq, rfl⟩

theorem nodesFold_nodup : ∀ (adj : List (Node × List (Node × Weight))) (acc : List Node),
    acc.Nodup →
    (adj.foldl (fun acc kv => kv.2.foldl (fun a p => sput a p.1) (sput acc kv.1)) acc).Nodup := by
  intro adj
  induction adj with
  | nil => intro acc h; exact h
  | cons kv rest ih =>
    intro acc h
    exact ih _ (innerFold_nodup _ _ (sput_nodup h kv.1))

theorem nodesFold_mem : ∀ (adj : List (Node × List (Node × Weight))) (acc : List Node)
    (y : Node),
    y ∈ adj.foldl (fun acc kv => kv.2.foldl (fun a p => sput a p.1) (sput acc kv.1)) acc ↔
      y ∈ acc ∨ ∃ kv ∈ adj, y = kv.1 ∨ ∃ p ∈ kv.2, p.1 = y := by
  intro adj
  induction adj with
  | nil => intro acc y; simp
  | cons kv rest ih =>
    intro acc y
    rw [List.foldl_cons, ih, innerFold_mem, sput_mem]
    simp only [List.mem_cons]
    constructor
    · rintro (((hy | rfl) | hp) | ⟨q, hq, hh⟩)
      · exact Or.inl hy
      · exact Or.inr ⟨kv, Or.inl rfl, Or.inl rfl⟩
      · exact Or.inr ⟨kv, Or.inl rfl, Or.inr hp⟩
      · exact Or.inr ⟨q, Or.inr hq, hh⟩
    · rintro (hy | ⟨q, (rfl | hq), hh⟩)
      · exact Or.inl (Or.inl (Or.inl hy))
      · rcases hh with rfl | hp
        · exact Or.inl (Or.inl (Or.inr rfl))
        · exact Or.inl (Or.inr hp)
      · exact Or.inr ⟨q, hq, hh⟩

theorem nodes_nodup (g : Graph) : g.nodes.Nodup :=
  nodesFold_nodup g.adj [] List.nodup_nil

theorem mem_nodes_iff (g : Graph) (y : Node) :
    y ∈ g.nodes ↔ ∃ kv ∈ g.adj, y = kv.1 ∨ ∃ p ∈ kv.2, p.1 = y := by
  have h := nodesFold_mem g.adj [] y
  rw [Graph.nodes, h]
  simp

/-- Every head of an adjacency entry is a node of the graph. -/
theorem mem_nodes_of_adjL {g : Graph} {u : Node} {p : Node × Weight}
    (hp : p ∈ g.adjL u) : p.1 ∈ g.nodes := by
  rw [mem_nodes_iff]
  cases hfind : g.adjGet u with
  | none => rw [Graph.adjL, hfind] at hp; exact absurd hp (List.not_mem_nil _)
  | some es =>
    rw [Graph.adjL, hfind] at hp
    exact ⟨(u, es), adjFind_mem hfind, Or.inr ⟨p, hp, rfl⟩⟩

/-- Rerouting: if the erased edge's endpoints stay connected in the new pool
`Q`, every old walk survives. -/
theorem ureach_reroute {T : Multiset UE} {f : UE} {Q : UE → Prop}
    (hsub : ∀ e, e ∈ T.erase f → Q e)
    (hbridge : UReach Q f.1 f.2.1) {a b : Node}
    (h : UReach (fun e => e ∈ T) a b) : UReach Q a b := by
  induction h with
  | refl => exact UReach.refl a
  | @tail y z hxy hedge ih =>
    refine UReach.trans ih ?_
    obtain ⟨w, hw | hw⟩ := hedge
    · by_cases ht : (y, z, w) = f
      · have h1 : y = f.1 := by rw [← ht]
        have h2 : z = f.2.1 := by rw [← ht]
        rw [h1, h2]
        exact hbridge
      · exact UReach.single ⟨w, Or.inl (hsub _ ((Multiset.mem_erase_of_ne ht).mpr hw))⟩
    · by_cases ht : (z, y, w) = f
      · have h1 : z = f.1 := by rw [← ht]
        have h2 : y = f.2.1 := by rw [← ht]
        rw [h1, h2]
        exact hbridge.symm
      · exact UReach.single ⟨w, Or.inr (hsub _ ((Multiset.mem_erase_of_ne ht).mpr hw))⟩

/-! ## Claim C2: Prim computes a minimum spanning tree -/

/-- Total weight of a multiset of edge triples. -/
def wsum (T : Multiset UE) : Int := (T.map (fun e => e.2.2)).sum

theorem wsum_cons (e : UE) (T : Multiset UE) : wsum (e ::ₘ T) = e.2.2 + wsum T := by
  rw [wsum, Multiset.map_cons, Multiset.sum_cons, wsum]

theorem wsum_cons_erase {T : Multiset UE} {f : UE} (hf : f ∈ T) :
    wsum T = f.2.2 + wsum (T.erase f) := by
  conv_lhs => rw [← Multiset.cons_erase hf]
  rw [wsum_cons]

/-- `T` is a spanning tree of the `Both`-built graph of `es` (with source
`s` as the reference point of connectivity): a sub-multiset of the inserted
triples, one fewer than the node count, connecting `s` to every node. -/
def SpanTree (es : List UE) (g : Graph) (s : Node) (T : Multiset UE) : Prop :=
  T ≤ (es : Multiset UE) ∧ Multiset.card T + 1 = g.nodes.length ∧
    ∀ v ∈ g.nodes, UReach (fun e => e ∈ T) s v

/-- The exchange invariant: the chosen edges `C` span the booked region,
account exactly for `total_cost`, and extend to a spanning tree at least as
cheap as any given one. -/
def MstExt (es : List UE) (g : Graph) (s : Node) (st : PrimState) : Prop :=
  ∃ C : Multiset UE,
    C ≤ (es : Multiset UE) ∧
    (∀ e ∈ C, e.1 ∈ st.booked ∧ e.2.1 ∈ st.booked) ∧
    Multiset.card C + 1 = st.booked.length ∧
    wsum C = st.total ∧
    (∀ b ∈ st.booked, UReach (fun e => e ∈ C) s b) ∧
    (∀ T2, SpanTree es g s T2 → ∃ T, SpanTree es g s T ∧ C ≤ T ∧ wsum T ≤ wsum T2)

theorem cons_le_of_notmem {C T : Multiset UE} {e : UE} (hCT : C ≤ T)
    (he : e ∈ T) (heC : e ∉ C) : e ::ₘ C ≤ T := by
  rw [Multiset.le_iff_count]
  intro t
  by_cases ht : t = e
  · subst ht
    rw [Multiset.count_cons_self, Multiset.count_eq_zero.mpr heC]
    exact Multiset.one_le_count_iff_mem.mpr he
  · rw [Multiset.count_cons_of_ne ht]
    exact Multiset.le_iff_count.mp hCT t

theorem le_erase_of_notmem {C T : Multiset UE} {f : UE} (hCT : C ≤ T) (hfC : f ∉ C) :
    C ≤ T.erase f := by
  rw [Multiset.le_iff_count]
  intro t
  by_cases ht : t = f
  · subst ht
    rw [Multiset.count_eq_zero.mpr hfC]
    exact Nat.zero_le _
  · rw [Multiset.count_erase_of_ne ht]
    exact Multiset.le_iff_count.mp hCT t

theorem exchange_le {T M : Multiset UE} {e0 f : UE} (hTM : T ≤ M) (he0 : e0 ∈ M)
    (he0T : e0 ∉ T) : e0 ::ₘ T.erase f ≤ M := by
  refine cons_le_of_notmem (le_trans (Multiset.erase_le f T) hTM) he0 ?_
  intro hmem
  exact he0T (Multiset.mem_of_le (Multiset.erase_le f T) hmem)

theorem exchange_card {T : Multiset UE} {e0 f : UE} (hf : f ∈ T) :
    Multiset.card (e0 ::ₘ T.erase f) = Multiset.card T := by
  rw [Multiset.card_cons, Multiset.card_erase_of_mem hf, Nat.pred_eq_sub_one]
  have hpos : 0 < Multiset.card T := Multiset.card_pos_iff_exists_mem.mpr ⟨f, hf⟩
  omega

/-- The running invariant of `prim` while relaxing the fresh edges of a
just-booked node `u`; `l` is the not-yet-examined suffix of `u`'s
adjacency list. -/
structure PRelax (es : List UE) (g : Graph) (s u : Node) (l : List (Node × Weight))
    (st : PrimState) : Prop where
  s_mem : s ∈ st.booked
  u_mem : u ∈ st.booked
  bk_nodup : st.booked.Nodup
  bk_nodes : ∀ b ∈ st.booked, b ∈ g.nodes
  cross : ∀ x ∈ st.booked, ∀ p ∈ g.adjL x, p.1 ∈ st.booked ∨ (x = u ∧ p ∈ l) ∨
    ∃ d, mget st.dist p.1 = some d ∧ d ≤ p.2
  frontier : ∀ v d, mget st.dist v = some d → v ∉ st.booked → (⟨d, v⟩ : HState) ∈ st.pq
  pq_ge : ∀ e ∈ st.pq, ∃ d, mget st.dist e.node = some d ∧ d ≤ e.cost
  parent_edge : ∀ v d, mget st.dist v = some d → v ∉ st.booked →
    ∃ p, mget st.parent v = some p ∧ p ∈ st.booked ∧ (v, d) ∈ g.adjL p
  mst : MstExt es g s st

/-- The invariant of `prim` between loop iterations (after the source has
been booked). -/
structure PInv (es : List UE) (g : Graph) (s : Node) (st : PrimState) : Prop where
  s_mem : s ∈ st.booked
  bk_nodup : st.booked.Nodup
  bk_nodes : ∀ b ∈ st.booked, b ∈ g.nodes
  cross : ∀ x ∈ st.booked, ∀ p ∈ g.adjL x, p.1 ∈ st.booked ∨
    ∃ d, mget st.dist p.1 = some d ∧ d ≤ p.2
  frontier : ∀ v d, mget st.dist v = some d → v ∉ st.booked → (⟨d, v⟩ : HState) ∈ st.pq
  pq_ge : ∀ e ∈ st.pq, ∃ d, mget st.dist e.node = some d ∧ d ≤ e.cost
  parent_edge : ∀ v d, mget st.dist v = some d → v ∉ st.booked →
    ∃ p, mget st.parent v = some p ∧ p ∈ st.booked ∧ (v, d) ∈ g.adjL p
  mst : MstExt es g s st

theorem pinv_of_prelax {es : List UE} {g : Graph} {s u : Node} {st : PrimState}
    (h : PRelax es g s u [] st) : PInv es g s st := by
  refine ⟨h.s_mem, h.bk_nodup, h.bk_nodes, ?_, h.frontier, h.pq_ge, h.parent_edge, h.mst⟩
  intro x hx p hp
  rcases h.cross x hx p hp with hb | ⟨_, hl⟩ | hd
  · exact Or.inl hb
  · exact absurd hl (List.not_mem_nil _)
  · exact Or.inr hd

/-- `primRelax` carries the invariant through the whole adjacency suffix. -/
theorem primRelax_spec (es : List UE) (g : Graph) (s u : Node) :
    ∀ (l : List (Node × Weight)) (st : PrimState), (∀ p ∈ l, p ∈ g.adjL u) →
    PRelax es g s u l st → PRelax es g s u [] (primRelax u l st) := by
  intro l
  induction l with
  | nil => intro st _ h; exact h
  | cons vw rest ih =>
    intro st hl h
    obtain ⟨v, w⟩ := vw
    rw [primRelax_cons]
    by_cases hv : v ∈ st.booked
    · rw [if_pos hv]
      refine ih st (fun p hp => hl p (List.mem_cons_of_mem _ hp))
        ⟨h.s_mem, h.u_mem, h.bk_nodup, h.bk_nodes, ?_, h.frontier, h.pq_ge,
          h.parent_edge, h.mst⟩
      intro x hx p hp
      rcases h.cross x hx p hp with hb | ⟨hxu, hpl⟩ | hd
      · exact Or.inl hb
      · rcases List.mem_cons.mp hpl with rfl | hpl
        · exact Or.inl hv
        · exact Or.inr (Or.inl ⟨hxu, hpl⟩)
      · exact Or.inr (Or.inr hd)
    · rw [if_neg hv]
      by_cases hc : ltD w (mget st.dist v) = true
      · rw [if_pos hc]
        refine ih (primPush st u v w) (fun p hp => hl p (List.mem_cons_of_mem _ hp)) ?_
        have hdist : (primPush st u v w).dist = mput st.dist v w := rfl
        have hpar : (primPush st u v w).parent = mput st.parent v u := rfl
        have hpq : (primPush st u v w).pq = ⟨w, v⟩ :: st.pq := rfl
        have hbk : (primPush st u v w).booked = st.booked := rfl
        refine ⟨h.s_mem, h.u_mem, h.bk_nodup, h.bk_nodes, ?_, ?_, ?_, ?_, h.mst⟩
        · intro x hx p hp
          rw [hbk] at hx ⊢
          rw [hdist]
          rcases h.cross x hx p hp with hb | ⟨hxu, hpl⟩ | ⟨d, hd, hle⟩
          · exact Or.inl hb
          · rcases List.mem_cons.mp hpl with rfl | hpl
            · refine Or.inr (Or.inr ⟨w, ?_, le_refl w⟩)
              exact mget_mput_self _ _ _
            · exact Or.inr (Or.inl ⟨hxu, hpl⟩)
          · by_cases hpv : p.1 = v
            · refine Or.inr (Or.inr ⟨w, ?_, ?_⟩)
              · rw [hpv]; exact mget_mput_self _ _ _
              · rw [hpv] at hd
                rw [hd] at hc
                have hlt : w < d := of_decide_eq_true hc
                exact le_trans (le_of_lt hlt) hle
            · exact Or.inr (Or.inr ⟨d, by rw [mget_mput_ne st.dist hpv w]; exact hd, hle⟩)
        · intro v2 d2 hd2 hv2
          rw [hbk] at hv2
          rw [hdist] at hd2
          rw [hpq]
          by_cases hvv : v2 = v
          · subst hvv
            rw [mget_mput_self] at hd2
            obtain rfl := Option.some.inj hd2
            exact List.mem_cons_self _ _
          · rw [mget_mput_ne st.dist hvv w] at hd2
            exact List.mem_cons_of_mem _ (h.frontier v2 d2 hd2 hv2)
        · intro e he
          rw [hdist]
          rw [hpq] at he
          rcases List.mem_cons.mp he with rfl | he
          · exact ⟨w, mget_mput_self _ _ _, le_refl w⟩
          · obtain ⟨d, hd, hle⟩ := h.pq_ge e he
            by_cases hev : e.node = v
            · refine ⟨w, by rw [hev]; exact mget_mput_self _ _ _, ?_⟩
              rw [hev] at hd
              rw [hd] at hc
              have hlt : w < d := of_decide_eq_true hc
              exact le_trans (le_of_lt hlt) hle
            · exact ⟨d, by rw [mget_mput_ne st.dist hev w]; exact hd, hle⟩
        · intro v2 d2 hd2 hv2
          rw [hbk] at hv2
          rw [hdist] at hd2
          rw [hpar, hbk]
          by_cases hvv : v2 = v
          · subst hvv
            rw [mget_mput_self] at hd2
            obtain rfl := Option.some.inj hd2
            exact ⟨u, mget_mput_self _ _ _, h.u_mem, hl (v2, w) (List.mem_cons_self _ _)⟩
          · rw [mget_mput_ne st.dist hvv w] at hd2
            obtain ⟨p, hp, hpb, hpe⟩ := h.parent_edge v2 d2 hd2 hv2
            exact ⟨p, by rw [mget_mput_ne st.parent hvv u]; exact hp, hpb, hpe⟩
      · rw [if_neg hc]
        refine ih st (fun p hp => hl p (List.mem_cons_of_mem _ hp))
          ⟨h.s_mem, h.u_mem, h.bk_nodup, h.bk_nodes, ?_, h.frontier, h.pq_ge,
            h.parent_edge, h.mst⟩
        intro x hx p hp
        rcases h.cross x hx p hp with hb | ⟨hxu, hpl⟩ | hd
        · exact Or.inl hb
        · rcases List.mem_cons.mp hpl with rfl | hpl
          · cases hdv : mget st.dist v with
            | none => rw [hdv] at hc; exact absurd rfl hc
            | some d =>
              refine Or.inr (Or.inr ⟨d, rfl, ?_⟩)
              rw [hdv] at hc
              have : ¬(w < d) := fun hlt => hc (decide_eq_true hlt)
              exact le_of_not_lt this
          · exact Or.inr (Or.inl ⟨hxu, hpl⟩)
        · exact Or.inr (Or.inr hd)

/-- The exchange step: booking a fresh node `un` over the cheapest crossing
edge keeps the chosen edges extendable to a minimum spanning tree. -/
theorem mstExt_accept (es : List UE) (g : Graph) (s : Node)
    (hadj : ∀ x v w, (v, w) ∈ g.adjL x ↔ (x, v, w) ∈ es ∨ (v, x, w) ∈ es)
    {st : PrimState} (hinv : PInv es g s st)
    {un : Node} {uc : Int}
    (hb : un ∉ st.booked)
    (hmin : ∀ e ∈ st.pq, uc ≤ e.cost)
    {pp : Node} (hppb : pp ∈ st.booked) (hppe : (un, uc) ∈ g.adjL pp)
    {st' : PrimState} (hB : st'.booked = un :: st.booked)
    (htot : st'.total = st.total + uc) :
    MstExt es g s st' := by
  unfold MstExt
  simp only [hB, htot]
  obtain ⟨e1, e2, he0es, he0sides⟩ : ∃ e1 e2 : Node, (e1, e2, uc) ∈ es ∧
      ((e1 = pp ∧ e2 = un) ∨ (e1 = un ∧ e2 = pp)) := by
    rcases (hadj pp un uc).mp hppe with hh | hh
    · exact ⟨pp, un, hh, Or.inl ⟨rfl, rfl⟩⟩
    · exact ⟨un, pp, hh, Or.inr ⟨rfl, rfl⟩⟩
  have hmincross : ∀ t : UE, t ∈ es → ∀ a b : Node,
      ((t.1 = a ∧ t.2.1 = b) ∨ (t.1 = b ∧ t.2.1 = a)) →
      a ∈ st.booked → b ∉ st.booked → uc ≤ t.2.2 := by
    intro t htes a b hsides ha hbnot
    have hadjab : (b, t.2.2) ∈ g.adjL a := by
      rcases hsides with ⟨h1, h2⟩ | ⟨h1, h2⟩
      · refine (hadj a b t.2.2).mpr (Or.inl ?_)
        rw [← h1, ← h2]
        exact htes
      · refine (hadj a b t.2.2).mpr (Or.inr ?_)
        rw [← h1, ← h2]
        exact htes
    rcases hinv.cross a ha (b, t.2.2) hadjab with hbb | ⟨d, hd, hdle⟩
    · exact absurd hbb hbnot
    · exact le_trans (hmin _ (hinv.frontier b d hd hbnot)) hdle
  obtain ⟨C, hCsub, hCend, hCcard, hCw, hCspan, hCext⟩ := hinv.mst
  have he0C : (e1, e2, uc) ∉ C := by
    intro hmem
    rcases he0sides with ⟨h1, h2⟩ | ⟨h1, h2⟩
    · exact hb (h2 ▸ (hCend _ hmem).2)
    · exact hb (h1 ▸ (hCend _ hmem).1)
  refine ⟨(e1, e2, uc) ::ₘ C, ?_, ?_, ?_, ?_, ?_, ?_⟩
  · exact cons_le_of_notmem hCsub (Multiset.mem_coe.mpr he0es) he0C
  · intro e he
    rcases Multiset.mem_cons.mp he with rfl | he
    · show e1 ∈ un :: st.booked ∧ e2 ∈ un :: st.booked
      rcases he0sides with ⟨h1, h2⟩ | ⟨h1, h2⟩
      · rw [h1, h2]
        exact ⟨List.mem_cons_of_mem _ hppb, List.mem_cons_self _ _⟩
      · rw [h1, h2]
        exact ⟨List.mem_cons_self _ _, List.mem_cons_of_mem _ hppb⟩
    · obtain ⟨hh1, hh2⟩ := hCend e he
      exact ⟨List.mem_cons_of_mem _ hh1, List.mem_cons_of_mem _ hh2⟩
  · show Multiset.card ((e1, e2, uc) ::ₘ C) + 1 = (un :: st.booked).length
    rw [Multiset.card_cons, List.length_cons]
    omega
  · show wsum ((e1, e2, uc) ::ₘ C) = st.total + uc
    have h1 : wsum ((e1, e2, uc) ::ₘ C) = uc + wsum C := wsum_cons _ _
    omega
  · intro b hbk
    rcases List.mem_cons.mp hbk with rfl | hbk
    · refine UReach.tail
        ((hCspan pp hppb).mono (fun e he => Multiset.mem_cons_of_mem he)) ?_
      rcases he0sides with ⟨h1, h2⟩ | ⟨h1, h2⟩
      · exact ⟨uc, Or.inl (by rw [← h1, ← h2]; exact Multiset.mem_cons_self _ _)⟩
      · exact ⟨uc, Or.inr (by rw [← h1, ← h2]; exact Multiset.mem_cons_self _ _)⟩
    · exact (hCspan b hbk).mono (fun e he => Multiset.mem_cons_of_mem he)
  · intro T2 hT2
    obtain ⟨T, hT, hCT, hTw⟩ := hCext T2 hT2
    by_cases he0T : (e1, e2, uc) ∈ T
    · exact ⟨T, hT, cons_le_of_notmem hCT he0T he0C, hTw⟩
    · have hreach : UReach (fun e => e ∈ T) s un := hT.2.2 un (mem_nodes_of_adjL hppe)
      obtain ⟨f, hfT, a, b, hfsides, hfa, hfb, hfbu⟩ :=
        ureach_sided_crossing (Multiset.card T) T (le_refl _) ⟨s, hinv.s_mem, hreach⟩ hb
      have hfes : f ∈ es := Multiset.mem_coe.mp (Multiset.mem_of_le hT.1 hfT)
      have hwf : uc ≤ f.2.2 := hmincross f hfes a b hfsides hfa hfb
      have hfC : f ∉ C := by
        intro hmem
        rcases hfsides with ⟨h1, h2⟩ | ⟨h1, h2⟩
        · exact hfb (h2 ▸ (hCend f hmem).2)
        · exact hfb (h1 ▸ (hCend f hmem).1)
      have hCerase : C ≤ T.erase f := le_erase_of_notmem hCT hfC
      have hTsub : ∀ e : UE, e ∈ T.erase f → e ∈ (e1, e2, uc) ::ₘ T.erase f :=
        fun e he => Multiset.mem_cons_of_mem he
      have hbridge : UReach (fun e => e ∈ (e1, e2, uc) ::ₘ T.erase f) f.1 f.2.1 := by
        have hCmono : ∀ e : UE, e ∈ C → e ∈ (e1, e2, uc) ::ₘ T.erase f :=
          fun e he => Multiset.mem_cons_of_mem (Multiset.mem_of_le hCerase he)
        have hsa : UReach (fun e => e ∈ (e1, e2, uc) ::ₘ T.erase f) s a :=
          (hCspan a hfa).mono hCmono
        have hsp : UReach (fun e => e ∈ (e1, e2, uc) ::ₘ T.erase f) s pp :=
          (hCspan pp hppb).mono hCmono
        have hpu : uedge (fun e => e ∈ (e1, e2, uc) ::ₘ T.erase f) pp un := by
          rcases he0sides with ⟨h1, h2⟩ | ⟨h1, h2⟩
          · exact ⟨uc, Or.inl (by rw [← h1, ← h2]; exact Multiset.mem_cons_self _ _)⟩
          · exact ⟨uc, Or.inr (by rw [← h1, ← h2]; exact Multiset.mem_cons_self _ _)⟩
        have hub : UReach (fun e => e ∈ (e1, e2, uc) ::ₘ T.erase f) un b :=
          (hfbu.mono hTsub).symm
        have hab : UReach (fun e => e ∈ (e1, e2, uc) ::ₘ T.erase f) a b :=
          hsa.symm.trans ((hsp.tail hpu).trans hub)
        rcases hfsides with ⟨h1, h2⟩ | ⟨h1, h2⟩
        · rw [h1, h2]
          exact hab
        · rw [h1, h2]
          exact hab.symm
      refine ⟨(e1, e2, uc) ::ₘ T.erase f, ⟨?_, ?_, ?_⟩, ?_, ?_⟩
      · exact exchange_le hT.1 (Multiset.mem_coe.mpr he0es) he0T
      · rw [exchange_card hfT]
        exact hT.2.1
      · intro v hv
        exact ureach_reroute hTsub hbridge (hT.2.2 v hv)
      · exact Multiset.cons_le_cons _ hCerase
      · have h1 : wsum ((e1, e2, uc) ::ₘ T.erase f) = uc + wsum (T.erase f) :=
          wsum_cons _ _
        have h2 : wsum T = f.2.2 + wsum (T.erase f) := wsum_cons_erase hfT
        omega

/-- `prim`'s two-phase invariant: either the loop has not yet run, or the
full invariant holds. -/
def PrimMst (es : List UE) (g : Graph) (s : Node) (st : PrimState) : Prop :=
  st = primInit s ∨ PInv es g s st

theorem primLoop_mst (es : List UE) (g : Graph) (s : Node)
    (hadj : ∀ x v w, (v, w) ∈ g.adjL x ↔ (x, v, w) ∈ es ∨ (v, x, w) ∈ es)
    (hs : s ∈ g.nodes) :
    ∀ (n : Nat) (st st' : PrimState), primLoop g n st = some st' →
    PrimMst es g s st → PrimMst es g s st' ∧ st'.pq = [] := by
  intro n
  induction n with
  | zero =>
    intro st st' h
    simp [primLoop] at h
  | succ n ih =>
    intro st st' h hmst
    rw [primLoop_succ] at h
    cases hpop : popMin st.pq with
    | none =>
      rw [hpop] at h
      obtain rfl := Option.some.inj h
      exact ⟨hmst, popMin_nil_iff.mp hpop⟩
    | some pr =>
      obtain ⟨u, rest⟩ := pr
      rw [hpop] at h
      simp only at h
      rcases hmst with rfl | hinv
      · have hpop2 : popMin (primInit s).pq = some (⟨0, s⟩, []) := rfl
        rw [hpop] at hpop2
        obtain ⟨hu, hrest⟩ := Prod.mk.injEq .. ▸ Option.some.inj hpop2
        subst hu
        subst hrest
        have hb : (⟨0, s⟩ : HState).node ∉ (primInit s).booked := List.not_mem_nil _
        rw [if_neg hb] at h
        have hstale : gtD (⟨0, s⟩ : HState).cost
            (mget (primInit s).dist (⟨0, s⟩ : HState).node) = false := by
          show gtD 0 (mget [(s, 0)] s) = false
          simp [mget, gtD]
        rw [if_neg (by rw [hstale]; exact Bool.false_ne_true)] at h
        have hacc : primAccept (primInit s) ⟨0, s⟩ [] =
            ⟨[(s, 0)], [s], [s], [], [], [], 0⟩ := rfl
        have hPR : PRelax es g s (⟨0, s⟩ : HState).node
            (g.adjL (⟨0, s⟩ : HState).node) (primAccept (primInit s) ⟨0, s⟩ []) := by
          rw [hacc]
          refine ⟨List.mem_singleton_self s, List.mem_singleton_self s,
            List.nodup_singleton s, ?_, ?_, ?_, ?_, ?_, ?_⟩
          · intro b hbk
            obtain rfl := List.mem_singleton.mp hbk
            exact hs
          · intro x hx p hp
            obtain rfl := List.mem_singleton.mp hx
            exact Or.inr (Or.inl ⟨rfl, hp⟩)
          · intro v d hd hv
            exfalso
            simp only [mget] at hd
            by_cases hsv : s = v
            · exact hv (by rw [← hsv]; exact List.mem_singleton_self s)
            · rw [if_neg hsv] at hd
              simp [mget] at hd
          · intro e he
            exact absurd he (List.not_mem_nil e)
          · intro v d hd hv
            exfalso
            simp only [mget] at hd
            by_cases hsv : s = v
            · exact hv (by rw [← hsv]; exact List.mem_singleton_self s)
            · rw [if_neg hsv] at hd
              simp [mget] at hd
          · refine ⟨0, Multiset.zero_le _, ?_, ?_, ?_, ?_, ?_⟩
            · intro e he
              exact absurd he (Multiset.not_mem_zero e)
            · rfl
            · rfl
            · intro b hbk
              obtain rfl := List.mem_singleton.mp hbk
              exact UReach.refl _
            · intro T2 h2
              exact ⟨T2, h2, Multiset.zero_le _, le_refl _⟩
        exact ih _ _ h (Or.inr (pinv_of_prelax
          (primRelax_spec es g s _ _ _ (fun p hp => hp) hPR)))
      · by_cases hb : u.node ∈ st.booked
        · rw [if_pos hb] at h
          refine ih _ _ h (Or.inr ⟨hinv.s_mem, hinv.bk_nodup, hinv.bk_nodes,
            hinv.cross, ?_, ?_, hinv.parent_edge, hinv.mst⟩)
          · intro v d hd hv
            rcases popMin_mem_cases hpop _ (hinv.frontier v d hd hv) with heq | hm
            · exfalso
              have hvn : v = u.node := congrArg HState.node heq
              exact hv (by rw [hvn]; exact hb)
            · exact hm
          · intro e he
            exact hinv.pq_ge e (popMin_subset hpop e he)
        · rw [if_neg hb] at h
          by_cases hstale : gtD u.cost (mget st.dist u.node) = true
          · rw [if_pos hstale] at h
            refine ih _ _ h (Or.inr ⟨hinv.s_mem, hinv.bk_nodup, hinv.bk_nodes,
              hinv.cross, ?_, ?_, hinv.parent_edge, hinv.mst⟩)
            · intro v d hd hv
              rcases popMin_mem_cases hpop _ (hinv.frontier v d hd hv) with heq | hm
              · exfalso
                have hvn : v = u.node := congrArg HState.node heq
                have hdc : d = u.cost := congrArg HState.cost heq
                rw [hvn] at hd
                rw [hd] at hstale
                have hlt : d < u.cost := of_decide_eq_true hstale
                rw [hdc] at hlt
                exact lt_irrefl _ hlt
              · exact hm
            · intro e he
              exact hinv.pq_ge e (popMin_subset hpop e he)
          · rw [if_neg hstale] at h
            obtain ⟨du, hdu, hdule⟩ := hinv.pq_ge u (popMin_mem hpop)
            have hnlt : ¬(du < u.cost) := by
              intro hlt
              rw [hdu] at hstale
              exact hstale (decide_eq_true hlt)
            have hdueq : du = u.cost := le_antisymm hdule (le_of_not_lt hnlt)
            subst hdueq
            obtain ⟨pp, hpp, hppb, hppe⟩ := hinv.parent_edge u.node u.cost hdu hb
            have hacc : primAccept st u rest =
                { st with
                  pq := rest
                  booked := u.node :: st.booked
                  nodes := st.nodes ++ [u.node]
                  edges := st.edges ++ [(pp, u.node)]
                  total := st.total + u.cost } := by
              simp only [primAccept]
              rw [hpp]
            have hbk3 : (primAccept st u rest).booked = u.node :: st.booked :=
              primAccept_booked st u rest
            have htot3 : (primAccept st u rest).total = st.total + u.cost := by
              rw [hacc]
            have hmst3 : MstExt es g s (primAccept st u rest) :=
              mstExt_accept es g s hadj hinv hb (popMin_min hpop) hppb hppe hbk3 htot3
            have hPR : PRelax es g s u.node (g.adjL u.node) (primAccept st u rest) := by
              refine ⟨?_, ?_, ?_, ?_, ?_, ?_, ?_, ?_, hmst3⟩
              · rw [hbk3]
                exact List.mem_cons_of_mem _ hinv.s_mem
              · rw [hbk3]
                exact List.mem_cons_self _ _
              · rw [hbk3]
                exact List.nodup_cons.mpr ⟨hb, hinv.bk_nodup⟩
              · rw [hbk3]
                intro bb hbb
                rcases List.mem_cons.mp hbb with rfl | hbb
                · exact mem_nodes_of_adjL hppe
                · exact hinv.bk_nodes bb hbb
              · rw [hbk3, primAccept_dist]
                intro x hx p hp
                rcases List.mem_cons.mp hx with rfl | hx
                · exact Or.inr (Or.inl ⟨rfl, hp⟩)
                · rcases hinv.cross x hx p hp with h1 | ⟨d, hd, hle⟩
                  · exact Or.inl (List.mem_cons_of_mem _ h1)
                  · exact Or.inr (Or.inr ⟨d, hd, hle⟩)
              · rw [hbk3, primAccept_dist, primAccept_pq]
                intro v d hd hv
                have hvold : v ∉ st.booked := fun hh => hv (List.mem_cons_of_mem _ hh)
                have hvne : v ≠ u.node := fun hh =>
                  hv (by rw [hh]; exact List.mem_cons_self _ _)
                rcases popMin_mem_cases hpop _ (hinv.frontier v d hd hvold) with heq | hm
                · exact absurd (congrArg HState.node heq) hvne
                · exact hm
              · rw [primAccept_dist, primAccept_pq]
                intro e he
                exact hinv.pq_ge e (popMin_subset hpop e he)
              · rw [hbk3, primAccept_dist, primAccept_parent]
                intro v d hd hv
                have hvold : v ∉ st.booked := fun hh => hv (List.mem_cons_of_mem _ hh)
                obtain ⟨p, hp, hpb2, hpe2⟩ := hinv.parent_edge v d hd hvold
                exact ⟨p, hp, List.mem_cons_of_mem _ hpb2, hpe2⟩
            exact ih _ _ h (Or.inr (pinv_of_prelax
              (primRelax_spec es g s u.node (g.adjL u.node) _ (fun p hp => hp) hPR)))

/-- Claim C2: for every connected graph built from `Both` (undirected) edge
insertions and every source node in it, `prim` terminates and its
`total_cost` is the weight of a minimum spanning tree: it is the weight of
some spanning tree of the inserted edges, and no spanning tree weighs
less.  (The scenario-3 instance, `total_cost = 10`, is checked in the
witness.) -/
theorem prim_total_is_mst (es : List UE) (s : Node)
    (hs : s ∈ (buildU es).nodes)
    (hconn : ∀ v ∈ (buildU es).nodes, Reach (buildU es) s v) :
    ∃ st, (buildU es).prim s = some st ∧
      (∃ T, SpanTree es (buildU es) s T ∧ wsum T = st.total) ∧
      (∀ T, SpanTree es (buildU es) s T → st.total ≤ wsum T) := by
  obtain ⟨st, hrun⟩ := prim_terminates (buildU es) s
  have hrun' : primLoop (buildU es) (buildU es).fuel0 (primInit s) = some st := hrun
  obtain ⟨hm, hpq⟩ := primLoop_mst es (buildU es) s
    (fun x v w => buildU_adjL_mem es x v w) hs _ _ _ hrun' (Or.inl rfl)
  rcases hm with heq | hinv
  · rw [heq] at hpq
    simp [primInit] at hpq
  · have hclosure : ∀ x ∈ st.booked, ∀ p ∈ (buildU es).adjL x, p.1 ∈ st.booked := by
      intro x hx p hp
      rcases hinv.cross x hx p hp with h1 | ⟨d, hd, _⟩
      · exact h1
      · by_cases hpb : p.1 ∈ st.booked
        · exact hpb
        · have hfr := hinv.frontier p.1 d hd hpb
          rw [hpq] at hfr
          exact absurd hfr (List.not_mem_nil _)
    have hbooked_all : ∀ v ∈ (buildU es).nodes, v ∈ st.booked := by
      intro v hv
      obtain ⟨c, hwalk⟩ := hconn v hv
      clear hv
      induction hwalk with
      | nil => exact hinv.s_mem
      | snoc hw hmem ihw => exact hclosure _ ihw _ hmem
    have hlen : st.booked.length = (buildU es).nodes.length := by
      have h1 : st.booked.toFinset = (buildU es).nodes.toFinset := by
        ext a
        simp only [List.mem_toFinset]
        exact ⟨fun hA => hinv.bk_nodes a hA, fun hA => hbooked_all a hA⟩
      have h2 := List.toFinset_card_of_nodup hinv.bk_nodup
      have h3 := List.toFinset_card_of_nodup (nodes_nodup (buildU es))
      rw [← h2, ← h3, h1]
    obtain ⟨C, hCsub, hCend, hCcard, hCw, hCspan, hCext⟩ := hinv.mst
    have hCtree : SpanTree es (buildU es) s C :=
      ⟨hCsub, by rw [hCcard, hlen], fun v hv => hCspan v (hbooked_all v hv)⟩
    refine ⟨st, hrun, ⟨C, hCtree, hCw⟩, ?_⟩
    intro T2 hT2
    obtain ⟨T, hT, hCT, hTw⟩ := hCext T2 hT2
    have hc1 : Multiset.card T + 1 = (buildU es).nodes.length := hT.2.1
    have hc2 : Multiset.card C + 1 = st.booked.length := hCcard
    have hcards : Multiset.card T ≤ Multiset.card C := by omega
    have hCeq : C = T := Multiset.eq_of_le_of_card_le hCT hcards
    rw [← hCw, hCeq]
    exact hTw

/-- The spec's scenario-3 edge list. -/
def esS3 : List UE := [(1, 2, 2), (1, 3, 3), (3, 4, 5), (3, 5, 4), (5, 4, 1)]

/-- Witness for claim C2 at the spec's scenario-3 graph ((1,2,2), (1,3,3),
(3,4,5), (3,5,4), (5,4,1), all inserted `Both`): the hypotheses hold,
`prim(1)` returns, and its `total_cost` is 10 — the minimum spanning tree
weight. -/
theorem prim_total_is_mst_witness :
    (1 ∈ (buildU esS3).nodes ∧ ∀ v ∈ (buildU esS3).nodes, Reach (buildU esS3) 1 v) ∧
      ∃ st, (buildU esS3).prim 1 = some st ∧ st.total = 10 ∧
        (∃ T, SpanTree esS3 (buildU esS3) 1 T ∧ wsum T = st.total) ∧
        (∀ T, SpanTree esS3 (buildU esS3) 1 T → st.total ≤ wsum T) := by
  have hs : (1 : Node) ∈ (buildU esS3).nodes := by decide
  have hnodes : (buildU esS3).nodes = [1, 2, 3, 4, 5] := by decide
  have hconn : ∀ v ∈ (buildU esS3).nodes, Reach (buildU esS3) 1 v := by
    intro v hv
    rw [hnodes] at hv
    rcases List.mem_cons.mp hv with rfl | hv
    · exact ⟨0, Walk.nil⟩
    rcases List.mem_cons.mp hv with rfl | hv
    · exact ⟨0 + 2, Walk.snoc Walk.nil (by decide)⟩
    rcases List.mem_cons.mp hv with rfl | hv
    · exact ⟨0 + 3, Walk.snoc Walk.nil (by decide)⟩
    rcases List.mem_cons.mp hv with rfl | hv
    · exact ⟨0 + 3 + 5, Walk.snoc
        (Walk.snoc Walk.nil (by decide) : Walk (buildU esS3) 1 3 (0 + 3)) (by decide)⟩
    rcases List.mem_cons.mp hv with rfl | hv
    · exact ⟨0 + 3 + 4, Walk.snoc
        (Walk.snoc Walk.nil (by decide) : Walk (buildU esS3) 1 3 (0 + 3)) (by decide)⟩
    · exact absurd hv (List.not_mem_nil _)
  obtain ⟨st, hrun, hex, hmin⟩ := prim_total_is_mst esS3 1 hs hconn
  have htot : ((buildU esS3).prim 1).map PrimState.total = some 10 := by decide
  rw [hrun] at htot
  simp only [Option.map_some'] at htot
  exact ⟨⟨hs, hconn⟩, st, hrun, Option.some.inj htot, hex, hmin⟩

end GraphTui
